import Mathlib

/-!
Shallow embedding of the IR-labs inverted-index builder and Boolean search
engine (src/indexer.cpp, src/search_cli.cpp, src/stemming.cpp), together with
proofs about the embedded operations.

Modelling conventions: 32-bit doc-ids and sizes are modelled as `Nat` (none of
the embedded loops can overflow 32 bits on the inputs considered, and the
claims are about order/membership structure, not wraparound); the 64-bit FNV
hash is reduced modulo 2^64 exactly as the C multiplication overflows; byte
strings are `List Char` (all relevant bytes are 7-bit ASCII); fallible or
potentially non-terminating C loops return `Option`, `none` marking the
diverging case. `p & (cap-1)` with `cap` a power of two is modelled as
`p % cap`, which is equal for powers of two.
-/

namespace IR

/-- `U32List::push_unique_sorted` (src/indexer.cpp:85-94) at the level of the
stored array: append `v` unless the array is nonempty and its last element
already equals `v`. (Capacity doubling only affects allocation, not the
stored elements.) -/
def push_unique_sorted (l : List Nat) (v : Nat) : List Nat :=
  if l.getLast? = some v then l else l ++ [v]

/-- `op_and` (src/search_cli.cpp:212-222): two-pointer intersection of two
sorted doc-id arrays. -/
def op_and : List Nat → List Nat → List Nat
  | [], _ => []
  | _ :: _, [] => []
  | x :: xs, y :: ys =>
    if x = y then x :: op_and xs ys
    else if x < y then op_and xs (y :: ys)
    else op_and (x :: xs) ys
termination_by a b => a.length + b.length

/-- `op_or` (src/search_cli.cpp:223-235): two-pointer union of two sorted
doc-id arrays, emitting the common value once, then draining the leftovers. -/
def op_or : List Nat → List Nat → List Nat
  | [], ys => ys
  | x :: xs, [] => x :: xs
  | x :: xs, y :: ys =>
    if x = y then x :: op_or xs ys
    else if x < y then x :: op_or xs (y :: ys)
    else y :: op_or (x :: xs) ys
termination_by a b => a.length + b.length

/-- The loop of `op_not` (src/search_cli.cpp:236-245): for each candidate
doc-id `d` in ascending order, advance the cursor past all elements `< d`
(`dropWhile`), skip `d` when the cursor now points at it, emit it otherwise. -/
def op_not_go : List Nat → List Nat → List Nat
  | [], _ => []
  | d :: ds, as =>
    if (as.dropWhile (· < d)).head? = some d then op_not_go ds (as.dropWhile (· < d))
    else d :: op_not_go ds (as.dropWhile (· < d))

/-- `op_not` (src/search_cli.cpp:236-245): complement of a sorted doc-id
array against `[0, doc_count)`. -/
def op_not (doc_count : Nat) (a : List Nat) : List Nat :=
  op_not_go (List.range doc_count) a

/-- The output-boundary duplicate check of `merge_union_u32`
(src/indexer.cpp:496,498,499): emit `v` unless the previously emitted value
(`none` when nothing has been emitted yet) already equals `v`. -/
def mu_emit (last : Option Nat) (v : Nat) : List Nat :=
  if last = some v then [] else [v]

/-- The two drain loops of `merge_union_u32` (src/indexer.cpp:498-499):
emit each leftover element through the duplicate check. -/
def mu_drain (last : Option Nat) : List Nat → List Nat
  | [] => []
  | v :: vs => mu_emit last v ++ mu_drain (some v) vs

/-- The main loop of `merge_union_u32` (src/indexer.cpp:489-499): two-pointer
merge; on a tie both cursors advance and the value is emitted once through
the duplicate check. -/
def mu_go (last : Option Nat) : List Nat → List Nat → List Nat
  | [], bs => mu_drain last bs
  | a :: as, [] => mu_drain last (a :: as)
  | x :: xs, y :: ys =>
    if x = y then mu_emit last x ++ mu_go (some x) xs ys
    else if x < y then mu_emit last x ++ mu_go (some x) xs (y :: ys)
    else mu_emit last y ++ mu_go (some y) (x :: xs) ys
termination_by a b => a.length + b.length

/-- `merge_union_u32` (src/indexer.cpp:484-503): sorted union of two doc-id
arrays with duplicates suppressed at the output boundary. -/
def merge_union_u32 (a b : List Nat) : List Nat :=
  mu_go none a b

/-- The term comparison used by the lexicon (`lex_cmp_str`,
src/indexer.cpp:477-482, and inline in `Index::find_term`,
src/search_cli.cpp:129-134): `memcmp` over the common prefix decides first;
on a tie the shorter string is smaller. Walking the two byte lists in
parallel and deciding at the first difference or at the first exhausted list
computes exactly that order. -/
def cmp_bytes : List Char → List Char → Ordering
  | [], [] => .eq
  | [], _ :: _ => .lt
  | _ :: _, [] => .gt
  | a :: as, b :: bs =>
    if a < b then .lt else if b < a then .gt else cmp_bytes as bs

/-- The binary-search loop of `Index::find_term` (src/search_cli.cpp:121-140)
over the lexicon's term list: maintain `[lo, hi)`, probe the middle record,
stop on equality. `none` models `return 0`. -/
def find_term_go (lex : List (List Char)) (t : List Char) (lo hi : Nat) : Option Nat :=
  if _h : lo < hi then
    match cmp_bytes t (lex.getD (lo + (hi - lo) / 2) []) with
    | .eq => some (lo + (hi - lo) / 2)
    | .lt => find_term_go lex t lo (lo + (hi - lo) / 2)
    | .gt => find_term_go lex t (lo + (hi - lo) / 2 + 1) hi
  else none
termination_by hi - lo
decreasing_by
  · omega
  · omega

/-- `Index::find_term` (src/search_cli.cpp:121-140): binary search of a term
over the whole lexicon. -/
def find_term (lex : List (List Char)) (t : List Char) : Option Nat :=
  find_term_go lex t 0 lex.length

/-! ### Hashing, per-document dedup set and term table (src/indexer.cpp)

The open-addressed tables are lists of optional slots (`none` is the
`hash == 0` empty slot).  `pos & (cap - 1)` is modelled as `pos % cap`
(equal for the power-of-two capacities the tables are created with).  The
unbounded C probe loops take a fuel argument; `none` models the diverging
full-table walk, which the proofs below show is unreachable under the
tables' load-factor invariants. -/

/-- `fnv1a_64` (src/indexer.cpp:25-32): FNV-1a over the bytes with 64-bit
wraparound; a zero result is remapped to 1 (zero is the empty-slot mark). -/
def fnv1a_64 (s : List Char) : Nat :=
  let h := s.foldl (fun h c => ((h ^^^ c.toNat) * 1099511628211) % 18446744073709551616)
    1469598103934665603
  if h = 0 then 1 else h

/-- The per-document dedup set (`DocTermSet`, src/indexer.cpp:193-252):
slots of (hash, term bytes) plus the used counter.  The rewindable arena
only stores the term bytes and is subsumed by storing them in the slots. -/
structure DocTermSet where
  tab : List (Option (Nat × List Char))
  used : Nat
deriving DecidableEq

/-- The linear-probe loop of `contains_or_add` (src/indexer.cpp:236-250):
stop at an empty slot (insert, "not present") or at a matching (hash, term)
pair ("already present").  The Bool is "found". -/
def dts_probe (tab : List (Option (Nat × List Char))) (h : Nat) (t : List Char) :
    Nat → Nat → Option (Bool × List (Option (Nat × List Char)))
  | 0, _ => none
  | fuel + 1, pos =>
    match tab.getD pos none with
    | none => some (false, tab.set pos (some (h, t)))
    | some (h2, t2) =>
      if h2 = h ∧ t2 = t then some (true, tab)
      else dts_probe tab h t fuel ((pos + 1) % tab.length)

/-- `DocTermSet::contains_or_add` (src/indexer.cpp:225-251): empty tokens
report "already present" (1); at 80% load (`used*10 ≥ cap*8`) the function
returns "not present" (0) WITHOUT inserting; otherwise it probes. -/
def contains_or_add (s : DocTermSet) (t : List Char) : Option (Nat × DocTermSet) :=
  if t.length ≤ 0 then some (1, s)
  else if s.used * 10 ≥ s.tab.length * 8 then some (0, s)
  else
    match dts_probe s.tab (fnv1a_64 t) t s.tab.length (fnv1a_64 t % s.tab.length) with
    | some (found, tab2) =>
      if found then some (1, s) else some (0, ⟨tab2, s.used + 1⟩)
    | none => none

/-- An in-memory term entry (`TermEntry`, src/indexer.cpp:97-102): hash,
arena-borrowed term bytes, and the posting list with its capacity. -/
structure TermEntry where
  hash : Nat
  term : List Char
  post : List Nat
  post_cap : Nat
deriving DecidableEq

/-- `U32List::push_unique_sorted` (src/indexer.cpp:85-94) at the entry
level: skip when the last stored doc-id equals `v`; otherwise append,
doubling the capacity (from 8) when full. -/
def te_push_unique_sorted (e : TermEntry) (v : Nat) : TermEntry :=
  if e.post.getLast? = some v then e
  else
    { e with
      post := e.post ++ [v],
      post_cap :=
        if e.post.length = e.post_cap then (if e.post_cap = 0 then 8 else e.post_cap * 2)
        else e.post_cap }

/-- `TermTable` (src/indexer.cpp:104-191): slots, used counter, and the
arena's byte usage (each stored term adds `len + 1` bytes). -/
structure TermTable where
  tab : List (Option TermEntry)
  used : Nat
  arena_used : Nat
deriving DecidableEq

/-- The rehash probe of `maybe_grow` (src/indexer.cpp:146-148): walk to the
first empty slot. -/
def tt_probe_empty (tab : List (Option TermEntry)) : Nat → Nat → Option Nat
  | 0, _ => none
  | fuel + 1, pos =>
    match tab.getD pos none with
    | none => some pos
    | some _ => tt_probe_empty tab fuel ((pos + 1) % tab.length)

/-- Insertion of one surviving entry into the doubled table during rehash
(src/indexer.cpp:144-151). -/
def rehash_insert (tab : List (Option TermEntry)) (e : TermEntry) :
    Option (List (Option TermEntry)) :=
  match tt_probe_empty tab tab.length (e.hash % tab.length) with
  | some pos => some (tab.set pos (some e))
  | none => none

/-- `TermTable::maybe_grow` (src/indexer.cpp:133-154): nothing below 70%
load (`used*10 < cap*7`); otherwise rehash every occupied slot into a fresh
table of twice the capacity, recounting `used`. -/
def maybe_grow (t : TermTable) : Option TermTable :=
  if t.used * 10 < t.tab.length * 7 then some t
  else
    match t.tab.foldl
        (fun acc slot =>
          match acc, slot with
          | some tab2, some e => rehash_insert tab2 e
          | acc2, none => acc2
          | none, some _ => none)
        (some (List.replicate (t.tab.length * 2) (none : Option TermEntry))) with
    | some tab2 =>
      some { tab := tab2, used := t.tab.countP Option.isSome, arena_used := t.arena_used }
    | none => none

/-- The probe loop of `get_or_create` (src/indexer.cpp:164-179): stop at an
empty slot (create the entry with an empty posting list) or at a matching
(hash, term) pair.  Returns (table, slot, created?). -/
def tt_probe (tab : List (Option TermEntry)) (h : Nat) (t : List Char) :
    Nat → Nat → Option (List (Option TermEntry) × Nat × Bool)
  | 0, _ => none
  | fuel + 1, pos =>
    match tab.getD pos none with
    | none => some (tab.set pos (some ⟨h, t, [], 0⟩), pos, true)
    | some e =>
      if e.hash = h ∧ e.term = t then some (tab, pos, false)
      else tt_probe tab h t fuel ((pos + 1) % tab.length)

/-- `TermTable::get_or_create` (src/indexer.cpp:156-180): `none` for empty
tokens models the C `nullptr`; `maybe_grow` runs before the probe; creation
bumps `used` and charges `len + 1` arena bytes. -/
def get_or_create (t : TermTable) (s : List Char) : Option (TermTable × Nat) :=
  if s.length ≤ 0 then none
  else
    match maybe_grow t with
    | none => none
    | some t1 =>
      match tt_probe t1.tab (fnv1a_64 s) s t1.tab.length (fnv1a_64 s % t1.tab.length) with
      | some (tab2, pos, created) =>
        some
          ({ tab := tab2,
             used := if created then t1.used + 1 else t1.used,
             arena_used :=
               if created then t1.arena_used + s.length + 1 else t1.arena_used },
            pos)
      | none => none

/-- Appending a doc-id to the posting list of the entry in slot `pos`
(the `e->post.push_unique_sorted(doc_id)` call, src/indexer.cpp:755). -/
def tt_push_at (t : TermTable) (pos : Nat) (v : Nat) : TermTable :=
  { t with
    tab := t.tab.set pos ((t.tab.getD pos none).map (fun e => te_push_unique_sorted e v)) }

/-- The per-token step of `process_one_doc` (src/indexer.cpp:752-758):
consult the dedup set; when it reports "not present" (0), fetch or create
the term entry and append the current doc-id to its posting list. -/
def doc_token_step (dset : DocTermSet) (tt : TermTable) (doc_id : Nat) (tok : List Char) :
    Option (DocTermSet × TermTable) :=
  match contains_or_add dset tok with
  | none => none
  | some (already, dset2) =>
    if already = 0 then
      match get_or_create tt tok with
      | none => some (dset2, tt)
      | some (tt2, pos) => some (dset2, tt_push_at tt2 pos doc_id)
    else some (dset2, tt)

/-- Lookup of a term's posting list in the term table (for stating the C1
counterexample). -/
def tt_find_post (t : TermTable) (s : List Char) : Option (List Nat) :=
  ((t.tab.filterMap id).find? (fun e => e.term == s)).map (fun e => e.post)

/-- A fresh 8-slot dedup set. -/
def dts_empty8 : DocTermSet := ⟨List.replicate 8 none, 0⟩

/-- The dedup set after inserting seven distinct one-byte terms into eight
slots: `used * 10 = 70 ≥ 64 = cap * 8`, i.e. saturated. -/
def dts_sat : DocTermSet :=
  (["a", "b", "c", "d", "e", "f", "g"].map String.toList).foldl
    (fun s t =>
      match contains_or_add s t with
      | some (_, s2) => s2
      | none => s)
    dts_empty8

/-- A fresh 4-slot term table. -/
def tt_empty4 : TermTable := ⟨List.replicate 4 none, 0, 0⟩

/-- Well-formedness of a term table: `used` counts the occupied slots and
the capacity is a positive power of two. -/
def TT_wf (t : TermTable) : Prop :=
  t.used = t.tab.countP Option.isSome ∧ 0 < t.tab.length ∧ ∃ k, t.tab.length = 2 ^ k

/-! ### Porter stemmer (src/stemming.cpp)

The C code mutates a byte buffer `b` and tracks the last live index `k`
(so the current word is `b[0..k]`) plus a scratch index `j`.  Here the word
is the list of live characters; the index arguments `j` that the C code can
drive to `-1` are modelled as `Int`.  Out-of-range reads use the blank
default — the C code never actually reads outside the live region in the
guarded paths proved below. -/

/-- `is_consonant` (src/stemming.cpp:34-42): vowels are not consonants, `y`
is a consonant exactly when the previous position is not. -/
def is_consonant (b : List Char) : Nat → Bool
  | 0 =>
    if b.getD 0 ' ' = 'a' ∨ b.getD 0 ' ' = 'e' ∨ b.getD 0 ' ' = 'i' ∨
        b.getD 0 ' ' = 'o' ∨ b.getD 0 ' ' = 'u' then false
    else true
  | i + 1 =>
    if b.getD (i + 1) ' ' = 'a' ∨ b.getD (i + 1) ' ' = 'e' ∨ b.getD (i + 1) ' ' = 'i' ∨
        b.getD (i + 1) ' ' = 'o' ∨ b.getD (i + 1) ' ' = 'u' then false
    else if b.getD (i + 1) ' ' = 'y' then !is_consonant b i
    else true

/-- `m_measure` (src/stemming.cpp:44-68).  The source loop first skips the
leading consonant run, then alternately skips a vowel run and a consonant
run, incrementing `n` once per completed vowel-run-to-consonant transition,
stopping as soon as the scan index exceeds `j`.  Consequently `n` is exactly
the number of positions `i ∈ [1, j]` where a consonant follows a
non-consonant, which is what is counted here (`0` when `j < 0`, as in the
source'\x73 immediate `i > j` exit). -/
def m_measure (b : List Char) (j : Int) : Nat :=
  if j < 0 then 0
  else (List.range' 1 j.toNat).countP (fun i => is_consonant b i && !is_consonant b (i - 1))

/-- `vowel_in_stem` (src/stemming.cpp:70-73): some position in `b[0..j]` is
not a consonant. -/
def vowel_in_stem (b : List Char) (j : Int) : Bool :=
  if j < 0 then false
  else (List.range (j.toNat + 1)).any (fun i => !is_consonant b i)

/-- `doublec` (src/stemming.cpp:75-79): positions `j-1, j` hold the same
character and it is a consonant. -/
def doublec (b : List Char) (j : Int) : Bool :=
  if j < 1 then false
  else if b.getD j.toNat ' ' ≠ b.getD (j.toNat - 1) ' ' then false
  else is_consonant b j.toNat

/-- `cvc` (src/stemming.cpp:81-87): consonant-vowel-consonant ending at `i`,
with the final consonant not in `{w, x, y}`. -/
def cvc (b : List Char) (i : Int) : Bool :=
  if i < 2 then false
  else if !is_consonant b i.toNat || is_consonant b (i.toNat - 1) ||
      !is_consonant b (i.toNat - 2) then false
  else !(b.getD i.toNat ' ' = 'w' || b.getD i.toNat ' ' = 'x' || b.getD i.toNat ' ' = 'y')

/-- `ends_with` (src/stemming.cpp:89-92): the live word ends with `s`. -/
def ends_with (w : List Char) (s : List Char) : Bool :=
  s.isSuffixOf w

/-- The plural block of `step1ab` (src/stemming.cpp:107-110). -/
def step1_s (w : List Char) : List Char :=
  if ends_with w "sses".toList then w.take (w.length - 2)
  else if ends_with w "ies".toList then w.take (w.length - 2)
  else if ends_with w "ss".toList then w
  else if ends_with w "s".toList then w.take (w.length - 1)
  else w

/-- The `eed`/`ed`/`ing` block of `step1ab` (src/stemming.cpp:112-121);
the Bool is the `flag` that enables the post-processing block.  In the `eed`
branch `j = k - 3`, in the `ed` branch `j = k - 2`, in the `ing` branch
`j = k - 3` (with `k = length - 1`). -/
def step1_ed_ing (w : List Char) : List Char × Bool :=
  if ends_with w "eed".toList then
    (if m_measure w ((w.length : Int) - 4) > 0 then (w.take (w.length - 1), false)
     else (w, false))
  else if ends_with w "ed".toList && vowel_in_stem w ((w.length : Int) - 3) then
    (w.take (w.length - 2), true)
  else if ends_with w "ing".toList && vowel_in_stem w ((w.length : Int) - 4) then
    (w.take (w.length - 3), true)
  else (w, false)

/-- The `flag` post-processing block of `step1ab` (src/stemming.cpp:123-134):
`at`/`bl`/`iz` are completed to `ate`/`ble`/`ize`; otherwise a trailing
double consonant other than `l`, `s`, `z` is undoubled; otherwise a short
CVC word gains an `e`. -/
def step1_fix (w : List Char) : List Char :=
  if ends_with w "at".toList then w.take (w.length - 2) ++ "ate".toList
  else if ends_with w "bl".toList then w.take (w.length - 2) ++ "ble".toList
  else if ends_with w "iz".toList then w.take (w.length - 2) ++ "ize".toList
  else if doublec w ((w.length : Int) - 1) then
    (if w.getD (w.length - 1) ' ' ≠ 'l' ∧ w.getD (w.length - 1) ' ' ≠ 's' ∧
        w.getD (w.length - 1) ' ' ≠ 'z' then
      w.take (w.length - 1)
    else w)
  else if m_measure w ((w.length : Int) - 1) = 1 && cvc w ((w.length : Int) - 1) then
    w ++ ['e']
  else w

/-- The trailing-`y` rule of `step1ab` (src/stemming.cpp:136-139): a final
`y` after a vowel-containing stem becomes `i`. -/
def step1_y (w : List Char) : List Char :=
  if ends_with w "y".toList && vowel_in_stem w ((w.length : Int) - 2) then
    w.take (w.length - 1) ++ ['i']
  else w

/-- `step1ab` (src/stemming.cpp:105-140). -/
def step1ab (w : List Char) : List Char :=
  match step1_ed_ing (step1_s w) with
  | (w2, flag) => step1_y (if flag then step1_fix w2 else w2)

/-- The guarded suffix substitution shared by `step2` and `step3`
(src/stemming.cpp:168-175, 190-196): with `j = k - slen`, replace the
suffix by the replacement only when `m_measure(b, j) > 0`. -/
def rule_sub (w : List Char) (suf rep : List Char) : List Char :=
  if m_measure w ((w.length : Int) - (suf.length : Int) - 1) > 0 then
    w.take (w.length - suf.length) ++ rep
  else w

/-- The first-match-wins rule scan of `step2`/`step3`: once a suffix
matches, the function returns whether or not the measure guard fires. -/
def apply_first_rule (w : List Char) : List (List Char × List Char) → List Char
  | [] => w
  | (suf, rep) :: rs =>
    if ends_with w suf then rule_sub w suf rep else apply_first_rule w rs

/-- The rule table of `step2` (src/stemming.cpp:144-166). -/
def step2_rules : List (List Char × List Char) :=
  [("ational".toList, "ate".toList), ("tional".toList, "tion".toList),
   ("enci".toList, "ence".toList), ("anci".toList, "ance".toList),
   ("izer".toList, "ize".toList), ("abli".toList, "able".toList),
   ("alli".toList, "al".toList), ("entli".toList, "ent".toList),
   ("eli".toList, "e".toList), ("ousli".toList, "ous".toList),
   ("ization".toList, "ize".toList), ("ation".toList, "ate".toList),
   ("ator".toList, "ate".toList), ("alism".toList, "al".toList),
   ("iveness".toList, "ive".toList), ("fulness".toList, "ful".toList),
   ("ousness".toList, "ous".toList), ("aliti".toList, "al".toList),
   ("iviti".toList, "ive".toList), ("biliti".toList, "ble".toList),
   ("logi".toList, "log".toList)]

/-- `step2` (src/stemming.cpp:142-177). -/
def step2 (w : List Char) : List Char :=
  apply_first_rule w step2_rules

/-- The rule table of `step3` (src/stemming.cpp:181-189). -/
def step3_rules : List (List Char × List Char) :=
  [("icate".toList, "ic".toList), ("ative".toList, "".toList),
   ("alize".toList, "al".toList), ("iciti".toList, "ic".toList),
   ("ical".toList, "ic".toList), ("ful".toList, "".toList),
   ("ness".toList, "".toList)]

/-- `step3` (src/stemming.cpp:179-197). -/
def step3 (w : List Char) : List Char :=
  apply_first_rule w step3_rules

/-- The suffix table of `step4` (src/stemming.cpp:200-207). -/
def step4_sufs : List (List Char) :=
  ["al".toList, "ance".toList, "ence".toList, "er".toList, "ic".toList,
   "able".toList, "ible".toList, "ant".toList, "ement".toList, "ment".toList,
   "ent".toList, "ion".toList, "ou".toList, "ism".toList, "ate".toList,
   "iti".toList, "ous".toList, "ive".toList, "ize".toList]

/-- The scan of `step4` (src/stemming.cpp:199-226): first matching suffix
wins; `ion` additionally requires an `s` or `t` right before it (otherwise
the step returns unchanged); the suffix is deleted only when
`m_measure(b, j) > 1` for `j = k - slen`. -/
def step4_go (w : List Char) : List (List Char) → List Char
  | [] => w
  | suf :: rest =>
    if ends_with w suf then
      (if suf = "ion".toList ∧
          ¬((w.length : Int) - (suf.length : Int) - 1 ≥ 0 ∧
            (w.getD (w.length - suf.length - 1) ' ' = 's' ∨
              w.getD (w.length - suf.length - 1) ' ' = 't')) then w
       else if m_measure w ((w.length : Int) - (suf.length : Int) - 1) > 1 then
         w.take (w.length - suf.length)
       else w)
    else step4_go w rest

/-- `step4` (src/stemming.cpp:199-226). -/
def step4 (w : List Char) : List Char :=
  step4_go w step4_sufs

/-- `step5` part a (src/stemming.cpp:230-237): drop a final `e` when
`m > 1`, or when `m = 1` and the stem before it is not a short CVC word
(`j = k - 1`). -/
def step5a (w : List Char) : List Char :=
  if ends_with w "e".toList then
    (if m_measure w ((w.length : Int) - 2) > 1 ∨
        (m_measure w ((w.length : Int) - 2) = 1 ∧ ¬cvc w ((w.length : Int) - 2)) then
      w.take (w.length - 1)
    else w)
  else w

/-- `step5` part b (src/stemming.cpp:239-242): undouble a final `ll` when
`m_measure(b, k) > 1`. -/
def step5b (w : List Char) : List Char :=
  if m_measure w ((w.length : Int) - 1) > 1 ∧ doublec w ((w.length : Int) - 1) ∧
      w.getD (w.length - 1) ' ' = 'l' then
    w.take (w.length - 1)
  else w

/-- `step5` (src/stemming.cpp:228-243). -/
def step5 (w : List Char) : List Char :=
  step5b (step5a w)

/-- The letter scan of `porter_stem_inplace` (src/stemming.cpp:247-252):
words without a lowercase letter are returned unchanged. -/
def has_lower_letter (w : List Char) : Bool :=
  w.any (fun c => 'a' ≤ c ∧ c ≤ 'z')

/-- `porter_stem_inplace` (src/stemming.cpp:245-267): words of length at
most 2 and all-non-letter words are unchanged; otherwise the five steps run
in order. -/
def porter_stem_inplace (w : List Char) : List Char :=
  if w.length ≤ 2 then w
  else if ¬has_lower_letter w then w
  else step5 (step4 (step3 (step2 (step1ab w))))

/-- `stem_word_en` (src/stemming.cpp:268-270). -/
def stem_word_en (w : List Char) : List Char :=
  porter_stem_inplace w

/-- `normalize_term` (src/search_cli.cpp:357-363): stem, then clamp the
result to 255 bytes. -/
def normalize_term (w : List Char) : List Char :=
  (stem_word_en w).take 255

/-! ### Query lexer, shunting yard and evaluator (src/search_cli.cpp) -/

/-- `is_ascii_alnum` (src/search_cli.cpp:16-20). -/
def is_ascii_alnum (c : Char) : Bool :=
  ('0' ≤ c ∧ c ≤ '9') ∨ ('A' ≤ c ∧ c ≤ 'Z') ∨ ('a' ≤ c ∧ c ≤ 'z')

/-- `to_lower_ascii` (src/search_cli.cpp:21-24): `c - 'A' + 'a'` is `c + 32`. -/
def to_lower_ascii (c : Char) : Char :=
  if 'A' ≤ c ∧ c ≤ 'Z' then Char.ofNat (c.toNat + 32) else c

/-- The token kinds of the query lexer (`TokType`, src/search_cli.cpp:247);
`T_END` terminates the stream and needs no constructor, term text travels
with the token. -/
inductive QTok where
  | term (text : List Char)
  | andTok
  | orTok
  | notTok
  | lpTok
  | rpTok
  | badTok
deriving DecidableEq

/-- Emission of a pending alnum run as a `TERM` token
(src/search_cli.cpp:288-299): the run is accumulated in reverse; only the
first 255 lowercased bytes are stored. -/
def emit_cur (cur : List Char) : List QTok :=
  if cur.isEmpty then [] else [QTok.term (cur.reverse.take 255)]

/-- The whole-line run of `TokStream::next` (src/search_cli.cpp:255-304):
spaces are skipped, `(` `)` `!` are single tokens, `&`/`&&` yield AND,
`|`/`||` yield OR, maximal alnum runs yield lowercased `TERM`s clamped to
255 bytes, any other byte yields a `BAD` token.  In the `&`/`|` cases an
exhausted rest is emitted directly (`lex_go [] [] = []`). -/
def lex_go : List Char → List Char → List QTok
  | cur, [] => emit_cur cur
  | cur, c :: cs =>
    if is_ascii_alnum c then lex_go (to_lower_ascii c :: cur) cs
    else
      emit_cur cur ++
        (if c = ' ' ∨ c = '\t' ∨ c = '\r' ∨ c = '\n' then lex_go [] cs
         else if c = '(' then QTok.lpTok :: lex_go [] cs
         else if c = ')' then QTok.rpTok :: lex_go [] cs
         else if c = '!' then QTok.notTok :: lex_go [] cs
         else if c = '&' then
           (match cs with
            | [] => [QTok.andTok]
            | c2 :: cs2 =>
              if c2 = '&' then QTok.andTok :: lex_go [] cs2
              else QTok.andTok :: lex_go [] (c2 :: cs2))
         else if c = '|' then
           (match cs with
            | [] => [QTok.orTok]
            | c2 :: cs2 =>
              if c2 = '|' then QTok.orTok :: lex_go [] cs2
              else QTok.orTok :: lex_go [] (c2 :: cs2))
         else QTok.badTok :: lex_go [] cs)

/-- Lexing a full query line. -/
def lex_query (line : List Char) : List QTok :=
  lex_go [] line

/-- Operators held on the shunting-yard stack (`TokStack`,
src/search_cli.cpp:336-352). -/
inductive OpT where
  | andOp
  | orOp
  | notOp
  | lpOp
deriving DecidableEq

/-- `precedence` (src/search_cli.cpp:306-311): NOT 3, AND 2, OR 1, others 0. -/
def prec : OpT → Nat
  | .notOp => 3
  | .andOp => 2
  | .orOp => 1
  | .lpOp => 0

/-- `is_right_assoc` (src/search_cli.cpp:312). -/
def is_right_assoc : OpT → Bool
  | .notOp => true
  | _ => false

/-- Postfix output items (`RpnItem`, src/search_cli.cpp:314-318): the left
parenthesis never reaches the output. -/
inductive RItem where
  | term (text : List Char)
  | andOp
  | orOp
  | notOp
deriving DecidableEq

/-- Conversion of a stack operator into its output item.  The `lpOp` case is
unreachable: every emission site below checks for `lpOp` first; a dummy
value keeps the function total. -/
def item_of_op : OpT → RItem
  | .andOp => .andOp
  | .orOp => .orOp
  | .notOp => .notOp
  | .lpOp => .andOp

/-- The operator-pop loop run before pushing an operator of precedence `p2`
and right-associativity `ra` (src/search_cli.cpp:379-387 and 408-417): pop
and emit stack operators above a left parenthesis while
`p1 > p2 ∨ (p1 = p2 ∧ ¬ra)`. -/
def pop_ge (p2 : Nat) (ra : Bool) : List OpT → List RItem × List OpT
  | [] => ([], [])
  | top :: rest =>
    if top = .lpOp then ([], top :: rest)
    else if prec top > p2 ∨ (prec top = p2 ∧ !ra) then
      (match pop_ge p2 ra rest with
       | (out, ops) => (item_of_op top :: out, ops))
    else ([], top :: rest)

/-- The right-parenthesis pop loop (src/search_cli.cpp:401-406): pop and
emit down to the matching left parenthesis, then discard it; an unmatched
`)` empties the stack. -/
def pop_to_lp : List OpT → List RItem × List OpT
  | [] => ([], [])
  | top :: rest =>
    if top = .lpOp then ([], rest)
    else
      (match pop_to_lp rest with
       | (out, ops) => (item_of_op top :: out, ops))

/-- The end-of-input flush (src/search_cli.cpp:424-429): pop everything,
silently discarding dangling left parentheses. -/
def flush_ops : List OpT → List RItem
  | [] => []
  | top :: rest =>
    if top = .lpOp then flush_ops rest else item_of_op top :: flush_ops rest

/-- `is_value_token` on the previous token (src/search_cli.cpp:354): `TERM`
or `)`; `none` is the initial `T_END`. -/
def is_value_tok : Option QTok → Bool
  | some (.term _) => true
  | some .rpTok => true
  | _ => false

/-- `can_start_value` (src/search_cli.cpp:355): `TERM`, `(` or `!`. -/
def can_start_value : QTok → Bool
  | .term _ => true
  | .lpTok => true
  | .notTok => true
  | _ => false

/-- The main loop of `to_rpn` (src/search_cli.cpp:365-432): `BAD` tokens are
skipped without touching `prev`; an implicit AND is processed between a
value-like previous token and a value-starting current token; `TERM`s are
stemmed and dropped when the stem is empty; parentheses and operators drive
the standard shunting-yard stack. -/
def to_rpn_go : List QTok → Option QTok → List RItem → List OpT → List RItem
  | [], _, out, ops => out ++ flush_ops ops
  | tok :: rest, prev, out, ops =>
    if tok = .badTok then to_rpn_go rest prev out ops
    else
      match (if is_value_tok prev ∧ can_start_value tok then
               (match pop_ge (prec .andOp) (is_right_assoc .andOp) ops with
                | (emitted, ops1) => (out ++ emitted, OpT.andOp :: ops1))
             else (out, ops)) with
      | (out1, ops1) =>
        match tok with
        | .term t =>
          if (normalize_term t).length > 0 then
            to_rpn_go rest (some tok) (out1 ++ [RItem.term (normalize_term t)]) ops1
          else to_rpn_go rest (some tok) out1 ops1
        | .lpTok => to_rpn_go rest (some tok) out1 (OpT.lpOp :: ops1)
        | .rpTok =>
          (match pop_to_lp ops1 with
           | (emitted, ops2) => to_rpn_go rest (some tok) (out1 ++ emitted) ops2)
        | .andTok =>
          (match pop_ge (prec .andOp) (is_right_assoc .andOp) ops1 with
           | (emitted, ops2) =>
             to_rpn_go rest (some tok) (out1 ++ emitted) (OpT.andOp :: ops2))
        | .orTok =>
          (match pop_ge (prec .orOp) (is_right_assoc .orOp) ops1 with
           | (emitted, ops2) =>
             to_rpn_go rest (some tok) (out1 ++ emitted) (OpT.orOp :: ops2))
        | .notTok =>
          (match pop_ge (prec .notOp) (is_right_assoc .notOp) ops1 with
           | (emitted, ops2) =>
             to_rpn_go rest (some tok) (out1 ++ emitted) (OpT.notOp :: ops2))
        | .badTok => to_rpn_go rest prev out1 ops1

/-- `to_rpn` (src/search_cli.cpp:365-432). -/
def to_rpn (line : List Char) : List RItem :=
  to_rpn_go (lex_query line) none [] []

/-- The in-memory index as the evaluator sees it: a document count and the
sorted lexicon, each record carrying its term bytes and decoded posting
list (`Index`, src/search_cli.cpp:90-188; the `postings_ptr` range check is
subsumed by storing decoded lists). -/
structure SIndex where
  doc_count : Nat
  lex : List (List Char × List Nat)
deriving DecidableEq

/-- `ResStack::pop_safe` (src/search_cli.cpp:452-455): an empty stack pops
an empty operand. -/
def pop_safe : List (List Nat) → List Nat × List (List Nat)
  | [] => ([], [])
  | a :: rest => (a, rest)

/-- One step of `eval_rpn` (src/search_cli.cpp:470-519): `TERM` pushes the
looked-up posting list (empty when absent), `NOT` complements against
`[0, doc_count)`, `AND`/`OR` pop two operands with the source's empty-input
shortcuts. -/
def eval_item (idx : SIndex) (st : List (List Nat)) : RItem → List (List Nat)
  | .term t =>
    (match find_term (idx.lex.map Prod.fst) t with
     | some i => (idx.lex.getD i ([], [])).2
     | none => []) :: st
  | .notOp =>
    (match pop_safe st with
     | (a, st1) => op_not idx.doc_count a :: st1)
  | .andOp =>
    (match pop_safe st with
     | (b, st1) =>
       match pop_safe st1 with
       | (a, st2) => (if a = [] ∨ b = [] then [] else op_and a b) :: st2)
  | .orOp =>
    (match pop_safe st with
     | (b, st1) =>
       match pop_safe st1 with
       | (a, st2) =>
         (if a = [] ∧ b = [] then []
          else if a = [] then b
          else if b = [] then a
          else op_or a b) :: st2)

/-- `eval_rpn` (src/search_cli.cpp:466-530): fold the postfix items over the
operand stack, then pop the final result (empty on underflow); residue is
discarded. -/
def eval_rpn (idx : SIndex) (rpn : List RItem) : List Nat :=
  (pop_safe (rpn.foldl (eval_item idx) [])).1

/-- Token classifier used to state claims about term-free queries. -/
def is_term_tok : QTok → Bool
  | .term _ => true
  | _ => false

/-- A `TERM` token survives `to_rpn` exactly when its stem is nonempty. -/
def keep_tok : QTok → Bool
  | .term t => !(normalize_term t).isEmpty
  | _ => true

/-! ### The build pipeline of the indexer (src/indexer.cpp, `main` and
`merge_blocks_to_index`)

A manifest line is modelled at the level of the `extract_json_string`
results; a block file is the sorted (term, postings) list that
`write_block` emits; the on-disk files are records of their header fields
and payload. -/

/-- The tokenizer loop of `process_one_doc` (src/indexer.cpp:740-774): the
current alnum run is accumulated in reverse and lowercased, bytes beyond
the 255th are dropped (`tok_len < TOK_MAX-1`), a non-alnum byte or the end
of the input emits the pending run.  `is_ascii_alnum` and `to_lower_ascii`
of the indexer (src/indexer.cpp:16-24) are byte-for-byte those of the
search CLI, so they are shared. -/
def tokenize_go (cur : List Char) : List Char → List (List Char)
  | [] => if cur = [] then [] else [cur.reverse]
  | c :: cs =>
    if is_ascii_alnum c then
      tokenize_go (if cur.length < 255 then to_lower_ascii c :: cur else cur) cs
    else
      (if cur = [] then [] else [cur.reverse]) ++ tokenize_go [] cs

/-- Tokenization of a whole document body. -/
def tokenize_doc (content : List Char) : List (List Char) :=
  tokenize_go [] content

/-- `DocTermSet::reset` (src/indexer.cpp:213-219): blank every slot and the
counter, keeping the capacity. -/
def dts_reset (s : DocTermSet) : DocTermSet :=
  ⟨List.replicate s.tab.length none, 0⟩

/-- `TermTable::clear` (src/indexer.cpp:118-125): blank every slot, the
counter and the arena, keeping the capacity. -/
def tt_clear (t : TermTable) : TermTable :=
  ⟨List.replicate t.tab.length none, 0, 0⟩

/-- `sizeof(TermEntry)` on the LP64 targets the code is written for: 8
(hash) + 8 (term pointer) + 2 (len) + 6 (padding) + 16 (`U32List`: pointer,
n, cap) = 40 bytes. -/
def sizeof_TermEntry : Nat := 40

/-- `TermTable::approx_mem_bytes` (src/indexer.cpp:182-190): the slot
array, the arena usage, and 4 bytes per allocated posting-list cell of
every occupied slot. -/
def approx_mem_bytes (t : TermTable) : Nat :=
  t.tab.length * sizeof_TermEntry + t.arena_used +
    t.tab.foldl
      (fun acc slot => acc + match slot with | some e => e.post_cap * 4 | none => 0) 0

/-- `process_one_doc` (src/indexer.cpp:713-781): a missing document file
(`fopen` fails) only warns and leaves the tables untouched; otherwise the
dedup set is reset and every token of the body goes through
`doc_token_step`.  `none` propagates the (unreachable) probe-loop
divergence. -/
def process_one_doc (content : Option (List Char)) (doc_id : Nat) (tt : TermTable)
    (dset : DocTermSet) : Option (TermTable × DocTermSet) :=
  match content with
  | none => some (tt, dset)
  | some text =>
    (tokenize_doc text).foldl
      (fun acc tok =>
        match acc with
        | none => none
        | some (tt1, ds1) =>
          match doc_token_step ds1 tt1 doc_id tok with
          | some (ds2, tt2) => some (tt2, ds2)
          | none => none)
      (some (tt, dts_reset dset))

/-- The comparison `term_cmp_lex` / `lexrec_cmp_by_term`
(src/indexer.cpp:359-367 and 507-523) as a Bool "not greater", for
sorting; all keys being distinct, the sorted order is unique. -/
def le_by_term (a b : List Char) : Bool :=
  match cmp_bytes a b with
  | .gt => false
  | _ => true

/-- `write_block` (src/indexer.cpp:369-397) at the payload level: the
occupied entries of the table as (term, postings) pairs, sorted by
`term_cmp_lex` (the block header and the per-entry length fields are
determined by this list). -/
def write_block (t : TermTable) : List (List Char × List Nat) :=
  ((t.tab.filterMap id).map (fun e => (e.term, e.post))).mergeSort
    (fun a b => le_by_term a.1 b.1)

/-- One manifest line at the level of the three `extract_json_string`
results (src/indexer.cpp:849-857): `none` is a failed extraction.  The C
code skips the line when `doc_id` fails, substitutes the doc-id for a
missing or empty title, and the empty string for a missing url. -/
structure JLine where
  doc_id : Option (List Char)
  title : Option (List Char)
  url : Option (List Char)
deriving DecidableEq

/-- The builder state threaded through the manifest loop of `main`
(src/indexer.cpp:819-901): the docs records (title, url), the term table,
the dedup set, the block files written so far, and the running doc-id. -/
structure BuildSt where
  docs : List (List Char × List Char)
  tt : TermTable
  dset : DocTermSet
  blocks : List (List (List Char × List Nat))
  doc_id : Nat
deriving DecidableEq

/-- One iteration of the manifest loop (src/indexer.cpp:848-901): skip the
line when `doc_id` is missing; otherwise register the docs record, process
the document body found under `corpus_dir/<doc_id>.txt` (the `corpus`
function models that directory), advance the doc-id, and flush the term
table to a block when `approx_mem_bytes` reaches the memory limit. -/
def manifest_step (corpus : List Char → Option (List Char)) (memLimit : Nat)
    (acc : Option BuildSt) (line : JLine) : Option BuildSt :=
  match acc with
  | none => none
  | some st =>
    match line.doc_id with
    | none => some st
    | some did =>
      let t0 := line.title.getD []
      let title_eff := if t0 = [] then did else t0
      let url_eff := line.url.getD []
      match process_one_doc (corpus did) st.doc_id st.tt st.dset with
      | none => none
      | some (tt2, dset2) =>
        let st2 : BuildSt :=
          { docs := st.docs ++ [(title_eff, url_eff)], tt := tt2, dset := dset2,
            blocks := st.blocks, doc_id := st.doc_id + 1 }
        if approx_mem_bytes st2.tt ≥ memLimit then
          some { st2 with blocks := st2.blocks ++ [write_block st2.tt], tt := tt_clear st2.tt }
        else some st2

/-- The builder state as `main` sets it up (src/indexer.cpp:819-841): a
2^21-slot term table, a 2^17-slot dedup set, nothing written. -/
def build_init : BuildSt :=
  { docs := [], tt := ⟨List.replicate (2 ^ 21) none, 0, 0⟩,
    dset := ⟨List.replicate (2 ^ 17) none, 0⟩, blocks := [], doc_id := 0 }

/-- One lexicon record (`LexRec`, src/indexer.cpp:407-415) with the term
bytes in place of the pool offset; `flags` and `reserved` are always 0. -/
structure LexRecM where
  term : List Char
  df : Nat
  postings_off : Nat
  postings_len : Nat
deriving DecidableEq

/-- `sizeof(PostHeader)` (src/indexer.cpp:416-420, packed): 4 + 4 + 32 = 40
bytes; the postings cursor starts there (src/indexer.cpp:648). -/
def sizeof_PostHeader : Nat := 40

/-- `docs.bin` (`DocsHeader` + records, src/indexer.cpp:277-344). -/
structure DocsFileM where
  magic : String
  version : Nat
  doc_count : Nat
  recs : List (List Char × List Char)
deriving DecidableEq

/-- `lexicon.bin` (`LexHeader` + records, src/indexer.cpp:400-415 and
565-583); `term_count` is the length of `recs`. -/
structure LexFileM where
  magic : String
  version : Nat
  recs : List LexRecM
deriving DecidableEq

/-- `postings.bin` (`PostHeader` + the concatenated posting lists,
src/indexer.cpp:641-698). -/
structure PostFileM where
  magic : String
  version : Nat
  data : List Nat
deriving DecidableEq

/-- The min-scan of the merge loop (src/indexer.cpp:654-662): the first
non-exhausted reader whose current term is strictly smallest under
`lex_cmp_str` (a later reader replaces the candidate only when strictly
smaller, so the first wins ties). -/
def min_reader_go : List (List (List Char × List Nat)) → Nat → Option (Nat × List Char) →
    Option (Nat × List Char)
  | [], _, best => best
  | r :: rest, i, best =>
    match r, best with
    | [], _ => min_reader_go rest (i + 1) best
    | (t, _) :: _, none => min_reader_go rest (i + 1) (some (i, t))
    | (t, _) :: _, some (bi, bt) =>
      if cmp_bytes t bt = Ordering.lt then min_reader_go rest (i + 1) (some (i, t))
      else min_reader_go rest (i + 1) (some (bi, bt))

/-- Index of the reader holding the smallest current term, if any reader
still has entries. -/
def min_reader (rs : List (List (List Char × List Nat))) : Option Nat :=
  (min_reader_go rs 0 none).map Prod.fst

/-- The absorption pass of the merge loop (src/indexer.cpp:675-685): every
reader (in index order) whose current term equals the chosen one merges its
postings into `merged` via `merge_union_u32` and advances. -/
def absorb_equal (cur : List Char) : List (List (List Char × List Nat)) → List Nat →
    List (List (List Char × List Nat)) × List Nat
  | [], merged => ([], merged)
  | [] :: rest, merged =>
    let p := absorb_equal cur rest merged
    ([] :: p.1, p.2)
  | ((t, ps) :: rtail) :: rest, merged =>
    if t = cur then
      let p := absorb_equal cur rest (merge_union_u32 merged ps)
      (rtail :: p.1, p.2)
    else
      let p := absorb_equal cur rest merged
      (((t, ps) :: rtail) :: p.1, p.2)

/-- The k-way merge loop (src/indexer.cpp:653-696): pick the reader with
the smallest term, start from its postings, advance it, absorb every
equal-term reader, append the merged list at the postings cursor and record
the lexicon entry (`merged_n = 0` still records an entry at the unmoved
cursor).  The fuel bounds the rounds; each round consumes at least one
entry, so one more than the total entry count never runs out. -/
def merge_loop : Nat → List (List (List Char × List Nat)) → Nat → List LexRecM →
    List Nat → Option (List LexRecM × List Nat)
  | 0, _, _, _, _ => none
  | fuel + 1, rs, cursor, lexAcc, postAcc =>
    match min_reader rs with
    | none => some (lexAcc, postAcc)
    | some mi =>
      match rs.getD mi [] with
      | [] => none
      | (cur, ps) :: rtail =>
        let p := absorb_equal cur (rs.set mi rtail) ps
        merge_loop fuel p.1 (cursor + p.2.length * 4)
          (lexAcc ++ [⟨cur, p.2.length, cursor, p.2.length⟩]) (postAcc ++ p.2)

/-- The outcome of `merge_blocks_to_index`: either the `exit(1)` on an
empty blocks directory, or the two produced files. -/
inductive MergeResult where
  | noBlocks
  | merged (lex : LexFileM) (post : PostFileM)
deriving DecidableEq

/-- `merge_blocks_to_index` (src/indexer.cpp:597-711): with zero `.blk`
files it prints "No .blk found" and exits 1 before creating either output
(src/indexer.cpp:624); otherwise it k-way-merges the blocks, writes
`postings.bin` behind its header, and writes `lexicon.bin` with the records
sorted by term (src/indexer.cpp:565-583).  `none` models the unreachable
fuel exhaustion. -/
def merge_blocks_to_index (blocks : List (List (List Char × List Nat))) :
    Option MergeResult :=
  if blocks.isEmpty then some MergeResult.noBlocks
  else
    match merge_loop ((blocks.map List.length).sum + 1) blocks sizeof_PostHeader [] [] with
    | none => none
    | some (lexAcc, postAcc) =>
      some (MergeResult.merged
        ⟨"LEXI", 1, lexAcc.mergeSort (fun a b => le_by_term a.term b.term)⟩
        ⟨"POST", 1, postAcc⟩)

/-- The observable outcome of a run of the indexer `main`. -/
inductive BuildOutcome where
  | ok (docs : DocsFileM) (lex : LexFileM) (post : PostFileM)
  | exit_no_blocks (docs : DocsFileM)
  | diverged
deriving DecidableEq

/-- `main` after argument parsing (src/indexer.cpp:819-943): fold the
manifest lines through the build loop, flush the final block only when the
term table is non-empty (src/indexer.cpp:904-910), write `docs.bin`
(src/indexer.cpp:912-914), then merge the blocks.  When the merge exits 1,
`docs.bin` is already on disk but `lexicon.bin` and `postings.bin` are
never created, which `exit_no_blocks` records. -/
def indexer_main (corpus : List Char → Option (List Char)) (memLimit : Nat)
    (manifest : List JLine) : BuildOutcome :=
  match manifest.foldl (manifest_step corpus memLimit) (some build_init) with
  | none => BuildOutcome.diverged
  | some st =>
    let blocks := if st.tt.used > 0 then st.blocks ++ [write_block st.tt] else st.blocks
    let docsF : DocsFileM := ⟨"DOCS", 1, st.docs.length, st.docs⟩
    match merge_blocks_to_index blocks with
    | none => BuildOutcome.diverged
    | some MergeResult.noBlocks => BuildOutcome.exit_no_blocks docsF
    | some (MergeResult.merged lexF postF) => BuildOutcome.ok docsF lexF postF

/-- In a strictly increasing list, every member is bounded by the last
element. -/
theorem le_getLast_of_pairwise_lt : ∀ {l : List Nat}, l.Pairwise (· < ·) → ∀ {x : Nat},
    x ∈ l → ∃ L, l.getLast? = some L ∧ x ≤ L := by
  intro l
  induction l with
  | nil => intro _ x hx; cases hx
  | cons a as ih =>
    intro hp x hx
    rcases List.mem_cons.mp hx with heq | hx'
    · cases as with
      | nil => exact ⟨a, rfl, le_of_eq heq⟩
      | cons b bs =>
        obtain ⟨L, hL, hbL⟩ := ih hp.of_cons (List.mem_cons_self b bs)
        have hab : a < b := List.rel_of_pairwise_cons hp (List.mem_cons_self b bs)
        refine ⟨L, by rw [List.getLast?_cons_cons]; exact hL, ?_⟩
        rw [heq]
        exact le_of_lt (lt_of_lt_of_le hab hbL)
    · cases as with
      | nil => cases hx'
      | cons b bs =>
        obtain ⟨L, hL, hxL⟩ := ih hp.of_cons hx'
        exact ⟨L, by rw [List.getLast?_cons_cons]; exact hL, hxL⟩

/-- Folding `push_unique_sorted` over a nondecreasing stream of doc-ids keeps
the accumulated posting list strictly increasing, provided every accumulated
element is bounded by every upcoming doc-id. -/
theorem push_fold_sorted (ds : List Nat) :
    ∀ acc : List Nat, acc.Pairwise (· < ·) →
      (∀ x ∈ acc, ∀ d ∈ ds, x ≤ d) → ds.Pairwise (· ≤ ·) →
      (ds.foldl push_unique_sorted acc).Pairwise (· < ·) := by
  induction ds with
  | nil => intro acc h _ _; simpa using h
  | cons d ds ih =>
    intro acc hacc hbound hds
    simp only [List.foldl_cons]
    apply ih
    · unfold push_unique_sorted
      split
      · exact hacc
      · next hne =>
        rw [List.pairwise_append]
        refine ⟨hacc, List.pairwise_singleton _ _, fun x hx y hy => ?_⟩
        rw [List.mem_singleton] at hy
        rw [hy]
        obtain ⟨L, hL, hxL⟩ := le_getLast_of_pairwise_lt hacc hx
        have hLmem : L ∈ acc := by
          obtain ⟨hne', hLeq⟩ := List.mem_getLast?_eq_getLast (by rw [hL]; rfl)
          rw [hLeq]; exact List.getLast_mem hne'
        have hLd : L ≤ d := hbound L hLmem d (List.mem_cons_self d ds)
        have hLne : L ≠ d := fun h => hne (h ▸ hL)
        omega
    · intro x hx d' hd'
      unfold push_unique_sorted at hx
      split at hx
      · exact hbound x hx d' (List.mem_cons_of_mem _ hd')
      · rw [List.mem_append] at hx
        rcases hx with hx | hx
        · exact hbound x hx d' (List.mem_cons_of_mem _ hd')
        · rw [List.mem_singleton] at hx; subst hx
          exact List.rel_of_pairwise_cons hds hd'
    · exact hds.of_cons

/-- C5: pushing doc-ids `d1 ≤ d2 ≤ …` through `push_unique_sorted` (starting
from the empty posting list) yields a strictly increasing, duplicate-free
posting list; the trailing-element check alone guarantees this. -/
theorem C5_push_unique_sorted_strict (ds : List Nat) (h : ds.Pairwise (· ≤ ·)) :
    (ds.foldl push_unique_sorted []).Pairwise (· < ·) ∧
    (ds.foldl push_unique_sorted []).Nodup := by
  have hp := push_fold_sorted ds [] (by simp) (by simp) h
  exact ⟨hp, hp.imp Nat.ne_of_lt⟩

/-- Membership in the two-pointer union: a value occurs in `op_or a b` exactly
when it occurs in `a` or in `b` (no sortedness needed). -/
theorem op_or_mem : ∀ (a b : List Nat) (v : Nat), v ∈ op_or a b ↔ v ∈ a ∨ v ∈ b := by
  intro a
  induction a with
  | nil => intro b v; simp [op_or]
  | cons x xs iha =>
    intro b
    induction b with
    | nil => intro v; simp [op_or]
    | cons y ys ihb =>
      intro v
      simp only [op_or]
      split_ifs with h1 h2
      · simp only [List.mem_cons, iha ys v, ← h1]
        tauto
      · simp only [List.mem_cons, iha (y :: ys) v]
        tauto
      · simp only [List.mem_cons, ihb v]
        tauto

/-- The two-pointer union of two strictly increasing lists is strictly
increasing. -/
theorem op_or_sorted : ∀ (a b : List Nat), a.Pairwise (· < ·) → b.Pairwise (· < ·) →
    (op_or a b).Pairwise (· < ·) := by
  intro a
  induction a with
  | nil => intro b _ hb; simpa [op_or] using hb
  | cons x xs iha =>
    intro b
    induction b with
    | nil => intro ha _; simpa [op_or] using ha
    | cons y ys ihb =>
      intro ha hb
      obtain ⟨hxa, ha'⟩ := List.pairwise_cons.mp ha
      obtain ⟨hyb, hb'⟩ := List.pairwise_cons.mp hb
      simp only [op_or]
      split_ifs with h1 h2
      · rw [List.pairwise_cons]
        refine ⟨fun v hv => ?_, iha ys ha' hb'⟩
        rcases (op_or_mem xs ys v).mp hv with h | h
        · exact hxa v h
        · rw [h1]; exact hyb v h
      · rw [List.pairwise_cons]
        refine ⟨fun v hv => ?_, iha (y :: ys) ha' hb⟩
        rcases (op_or_mem xs (y :: ys) v).mp hv with h | h
        · exact hxa v h
        · rcases List.mem_cons.mp h with heq | h'
          · rw [heq]; exact h2
          · exact lt_trans h2 (hyb v h')
      · have h3 : y < x := by omega
        rw [List.pairwise_cons]
        refine ⟨fun v hv => ?_, ihb ha hb'⟩
        rcases (op_or_mem (x :: xs) ys v).mp hv with h | h
        · rcases List.mem_cons.mp h with heq | h'
          · rw [heq]; exact h3
          · exact lt_trans h3 (hxa v h')
        · exact hyb v h

/-- The two-pointer intersection of two lists with no common member is
empty. -/
theorem op_and_eq_nil_of_disjoint : ∀ (a b : List Nat), (∀ x ∈ a, x ∉ b) →
    op_and a b = [] := by
  intro a
  induction a with
  | nil => intro b _; simp [op_and]
  | cons x xs iha =>
    intro b
    induction b with
    | nil => intro _; simp [op_and]
    | cons y ys ihb =>
      intro h
      have hxny : x ≠ y := fun he =>
        h x (List.mem_cons_self x xs) (he ▸ List.mem_cons_self y ys)
      simp only [op_and]
      rw [if_neg hxny]
      split_ifs with hlt
      · exact iha (y :: ys) (fun e he' => h e (List.mem_cons_of_mem _ he'))
      · exact ihb (fun e he' hin => h e he' (List.mem_cons_of_mem _ hin))

/-- Elements at least as large as the `dropWhile (· < d)` cutoff are dropped
by the prefix removal exactly when they are absent from the original list. -/
theorem mem_dropWhile_iff_of_not_lt {as : List Nat} {d e : Nat} (h : ¬ e < d) :
    e ∈ as.dropWhile (· < d) ↔ e ∈ as := by
  constructor
  · exact fun he => (List.dropWhile_sublist _).subset he
  · intro he
    rcases List.mem_append.mp
        (by rw [List.takeWhile_append_dropWhile]; exact he :
          e ∈ as.takeWhile (· < d) ++ as.dropWhile (· < d)) with h1 | h2
    · exact absurd (by simpa using List.mem_takeWhile_imp h1) h
    · exact h2

/-- In a strictly increasing list, `d` is a member exactly when the head of
`dropWhile (· < d)` equals `d` — the correctness of the skip-then-compare
cursor step in `op_not`. -/
theorem mem_iff_head_dropWhile {as : List Nat} (has : as.Pairwise (· < ·)) (d : Nat) :
    d ∈ as ↔ (as.dropWhile (· < d)).head? = some d := by
  constructor
  · intro hd
    rcases List.mem_append.mp
        (by rw [List.takeWhile_append_dropWhile]; exact hd :
          d ∈ as.takeWhile (· < d) ++ as.dropWhile (· < d)) with h1 | h2
    · exact absurd (by simpa using List.mem_takeWhile_imp h1) (lt_irrefl d)
    · have has' : (as.dropWhile (· < d)).Pairwise (· < ·) :=
        List.Pairwise.sublist (List.dropWhile_sublist _) has
      have hnot := List.head?_dropWhile_not (fun x => decide (x < d)) as
      cases hcase : as.dropWhile (· < d) with
      | nil => rw [hcase] at h2; cases h2
      | cons z rest =>
        rw [hcase] at h2 has' hnot
        simp only [List.head?_cons] at hnot ⊢
        rcases List.mem_cons.mp h2 with heq | hmem
        · rw [heq]
        · have hzd : z < d := List.rel_of_pairwise_cons has' hmem
          simp [hzd] at hnot
  · intro hh
    have hmem : d ∈ as.dropWhile (· < d) := by
      cases hcase : as.dropWhile (· < d) with
      | nil => rw [hcase] at hh; cases hh
      | cons z rest =>
        rw [hcase] at hh
        simp only [List.head?_cons, Option.some.injEq] at hh
        rw [hh] at hcase ⊢
        exact List.mem_cons_self d rest
    exact (List.dropWhile_sublist _).subset hmem

/-- The cursor loop of `op_not` computes exactly the complement filter over
the candidate list, for strictly increasing inputs. -/
theorem op_not_go_eq_filter : ∀ (ds as : List Nat), ds.Pairwise (· < ·) →
    as.Pairwise (· < ·) →
    op_not_go ds as = ds.filter (fun d => decide (d ∉ as)) := by
  intro ds
  induction ds with
  | nil => intro as _ _; rfl
  | cons d ds ih =>
    intro as hds has
    have has' : (as.dropWhile (· < d)).Pairwise (· < ·) :=
      List.Pairwise.sublist (List.dropWhile_sublist _) has
    have hcongr : ds.filter (fun e => decide (e ∉ as.dropWhile (· < d))) =
        ds.filter (fun e => decide (e ∉ as)) := by
      apply List.filter_congr
      intro e he
      have hde : d < e := List.rel_of_pairwise_cons hds he
      rw [decide_eq_decide]
      rw [mem_dropWhile_iff_of_not_lt (Nat.lt_asymm hde)]
    simp only [op_not_go]
    by_cases hmem : d ∈ as
    · rw [if_pos ((mem_iff_head_dropWhile has d).mp hmem)]
      rw [ih _ hds.of_cons has', hcongr]
      simp [List.filter_cons, hmem]
    · rw [if_neg (fun h => hmem ((mem_iff_head_dropWhile has d).mpr h))]
      rw [ih _ hds.of_cons has', hcongr]
      simp [List.filter_cons, hmem]

/-- `op_not` computes the complement filter over `[0, doc_count)`. -/
theorem op_not_eq_filter (n : Nat) (a : List Nat) (ha : a.Pairwise (· < ·)) :
    op_not n a = (List.range n).filter (fun d => decide (d ∉ a)) :=
  op_not_go_eq_filter _ _ (List.pairwise_lt_range n) ha

/-- Two strictly increasing lists with the same members are equal. -/
theorem eq_of_sorted_of_mem_iff {l₁ l₂ : List Nat} (h₁ : l₁.Pairwise (· < ·))
    (h₂ : l₂.Pairwise (· < ·)) (hm : ∀ v, v ∈ l₁ ↔ v ∈ l₂) : l₁ = l₂ := by
  have nd₁ : l₁.Nodup := h₁.imp Nat.ne_of_lt
  have nd₂ : l₂.Nodup := h₂.imp Nat.ne_of_lt
  exact List.eq_of_perm_of_sorted ((List.perm_ext_iff_of_nodup nd₁ nd₂).mpr hm) h₁ h₂

/-- Filtering `[0, n)` down to the members of a strictly increasing,
`n`-bounded list reproduces that list. -/
theorem filter_range_mem_eq {a : List Nat} {n : Nat} (ha : a.Pairwise (· < ·))
    (hb : ∀ x ∈ a, x < n) : (List.range n).filter (fun d => decide (d ∈ a)) = a := by
  apply eq_of_sorted_of_mem_iff (List.Pairwise.filter _ (List.pairwise_lt_range n)) ha
  intro v
  simp only [List.mem_filter, List.mem_range, decide_eq_true_eq]
  exact ⟨And.right, fun hv => ⟨hb v hv, hv⟩⟩

/-- C6: for a strictly ascending doc-id array bounded by `doc_count`,
`NOT (NOT A) = A`, `A AND (NOT A) = ∅`, and `A OR (NOT A) = [0, doc_count)`
for the evaluator combinators `op_and`, `op_or`, `op_not`. -/
theorem C6_complement_laws (n : Nat) (a : List Nat) (ha : a.Pairwise (· < ·))
    (hbound : ∀ x ∈ a, x < n) :
    op_not n (op_not n a) = a ∧ op_and a (op_not n a) = [] ∧
      op_or a (op_not n a) = List.range n := by
  have hb : op_not n a = (List.range n).filter (fun d => decide (d ∉ a)) :=
    op_not_eq_filter n a ha
  have hbs : (op_not n a).Pairwise (· < ·) := by
    rw [hb]; exact List.Pairwise.filter _ (List.pairwise_lt_range n)
  have hbmem : ∀ v, v ∈ op_not n a ↔ (v < n ∧ v ∉ a) := by
    intro v
    rw [hb]
    simp [List.mem_filter, List.mem_range]
  refine ⟨?_, ?_, ?_⟩
  · rw [op_not_eq_filter n _ hbs]
    have hc : ∀ d ∈ List.range n,
        (decide (d ∉ op_not n a)) = (decide (d ∈ a)) := by
      intro d hd
      rw [List.mem_range] at hd
      rw [decide_eq_decide, hbmem d]
      constructor
      · intro h
        by_cases hda : d ∈ a
        · exact hda
        · exact absurd ⟨hd, hda⟩ h
      · intro h hcontra
        exact hcontra.2 h
    rw [List.filter_congr hc]
    exact filter_range_mem_eq ha hbound
  · apply op_and_eq_nil_of_disjoint
    intro x hx hx'
    exact ((hbmem x).mp hx').2 hx
  · apply eq_of_sorted_of_mem_iff (op_or_sorted a _ ha hbs) (List.pairwise_lt_range n)
    intro v
    rw [op_or_mem, hbmem v, List.mem_range]
    constructor
    · rintro (hva | ⟨hvn, _⟩)
      · exact hbound v hva
      · exact hvn
    · intro hvn
      by_cases hva : v ∈ a
      · exact Or.inl hva
      · exact Or.inr ⟨hvn, hva⟩

/-- Witness for C6 at `doc_count = 3`, `A = [1]`. -/
theorem C6_complement_laws_witness :
    op_not 3 (op_not 3 [1]) = [1] ∧ op_and [1] (op_not 3 [1]) = [] ∧
      op_or [1] (op_not 3 [1]) = List.range 3 :=
  C6_complement_laws 3 [1] (by decide) (by decide)

/-- `last` (the previously emitted value, if any) is strictly below `x`. -/
def opt_lt (last : Option Nat) (x : Nat) : Prop :=
  ∀ m, last = some m → m < x

/-- When the value to emit is strictly above the previously emitted one, the
boundary duplicate check always emits. -/
theorem mu_emit_eq {last : Option Nat} {v : Nat} (h : opt_lt last v) :
    mu_emit last v = [v] := by
  unfold mu_emit
  rw [if_neg]
  intro hc
  exact lt_irrefl v (h v hc)

/-- Draining a strictly increasing leftover list through the boundary check
reproduces it unchanged. -/
theorem mu_drain_eq : ∀ (bs : List Nat) (last : Option Nat), bs.Pairwise (· < ·) →
    (∀ x ∈ bs, opt_lt last x) → mu_drain last bs = bs := by
  intro bs
  induction bs with
  | nil => intro last _ _; rfl
  | cons v vs ih =>
    intro last hp hl
    simp only [mu_drain]
    rw [mu_emit_eq (hl v (List.mem_cons_self v vs))]
    rw [ih (some v) hp.of_cons (fun x hx m hm => by
      injection hm with hm'
      rw [← hm']
      exact List.rel_of_pairwise_cons hp hx)]
    rfl

/-- On strictly increasing inputs above the last emitted value, the
duplicate-suppressing merge of `merge_union_u32` coincides with the plain
two-pointer union `op_or`. -/
theorem mu_go_eq_op_or : ∀ (a b : List Nat) (last : Option Nat),
    a.Pairwise (· < ·) → b.Pairwise (· < ·) →
    (∀ x ∈ a, opt_lt last x) → (∀ y ∈ b, opt_lt last y) →
    mu_go last a b = op_or a b := by
  intro a
  induction a with
  | nil =>
    intro b last _ hb _ hlb
    simp only [mu_go, op_or]
    exact mu_drain_eq b last hb hlb
  | cons x xs iha =>
    intro b
    induction b with
    | nil =>
      intro last ha _ hla _
      simp only [mu_go, op_or]
      exact mu_drain_eq (x :: xs) last ha hla
    | cons y ys ihb =>
      intro last ha hb hla hlb
      obtain ⟨hxa, ha'⟩ := List.pairwise_cons.mp ha
      obtain ⟨hyb, hb'⟩ := List.pairwise_cons.mp hb
      simp only [mu_go, op_or]
      split_ifs with h1 h2
      · rw [mu_emit_eq (hla x (List.mem_cons_self x xs))]
        rw [iha ys (some x) ha' hb'
          (fun e he m hm => by injection hm with hm'; rw [← hm']; exact hxa e he)
          (fun e he m hm => by
            injection hm with hm'
            rw [← hm', h1]
            exact hyb e he)]
        rfl
      · rw [mu_emit_eq (hla x (List.mem_cons_self x xs))]
        rw [iha (y :: ys) (some x) ha' hb
          (fun e he m hm => by injection hm with hm'; rw [← hm']; exact hxa e he)
          (fun e he m hm => by
            injection hm with hm'
            rw [← hm']
            rcases List.mem_cons.mp he with heq | he'
            · rw [heq]; exact h2
            · exact lt_trans h2 (hyb e he'))]
        rfl
      · have h3 : y < x := by omega
        rw [mu_emit_eq (hlb y (List.mem_cons_self y ys))]
        rw [ihb (some y) ha hb'
          (fun e he m hm => by
            injection hm with hm'
            rw [← hm']
            rcases List.mem_cons.mp he with heq | he'
            · rw [heq]; exact h3
            · exact lt_trans h3 (hxa e he'))
          (fun e he m hm => by injection hm with hm'; rw [← hm']; exact hyb e he)]
        rfl

/-- C8: on strictly ascending inputs, `merge_union_u32` returns a strictly
ascending array containing exactly the values occurring in either input. -/
theorem C8_merge_union_u32_sorted_union (a b : List Nat) (ha : a.Pairwise (· < ·))
    (hb : b.Pairwise (· < ·)) :
    (merge_union_u32 a b).Pairwise (· < ·) ∧
      ∀ v, v ∈ merge_union_u32 a b ↔ v ∈ a ∨ v ∈ b := by
  have he : merge_union_u32 a b = op_or a b :=
    mu_go_eq_op_or a b none ha hb (fun _ _ _ hm => Option.noConfusion hm)
      (fun _ _ _ hm => Option.noConfusion hm)
  rw [he]
  exact ⟨op_or_sorted a b ha hb, op_or_mem a b⟩

/-- Witness for C8 at `a = [1, 3]`, `b = [2, 3]`. -/
theorem C8_merge_union_u32_sorted_union_witness :
    (merge_union_u32 [1, 3] [2, 3]).Pairwise (· < ·) ∧
      ∀ v, v ∈ merge_union_u32 [1, 3] [2, 3] ↔ v ∈ ([1, 3] : List Nat) ∨ v ∈ ([2, 3] : List Nat) :=
  C8_merge_union_u32_sorted_union [1, 3] [2, 3] (by decide) (by decide)

/-- `cmp_bytes` is reflexive-equal. -/
theorem cmp_bytes_self : ∀ a : List Char, cmp_bytes a a = .eq := by
  intro a
  induction a with
  | nil => rfl
  | cons x xs ih => simp [cmp_bytes, ih]

/-- `cmp_bytes` returns `.eq` exactly on equal byte strings. -/
theorem cmp_bytes_eq_iff : ∀ a b : List Char, cmp_bytes a b = .eq ↔ a = b := by
  intro a
  induction a with
  | nil =>
    intro b
    cases b with
    | nil => simp [cmp_bytes]
    | cons y ys => simp [cmp_bytes]
  | cons x xs ih =>
    intro b
    cases b with
    | nil => simp [cmp_bytes]
    | cons y ys =>
      simp only [cmp_bytes]
      split_ifs with h1 h2
      · constructor
        · intro h; cases h
        · intro h
          injection h with hx _
          exact absurd (hx ▸ h1) (lt_irrefl y)
      · constructor
        · intro h; cases h
        · intro h
          injection h with hx _
          exact absurd (hx ▸ h2) (lt_irrefl y)
      · have hxy : x = y := le_antisymm (not_lt.mp h2) (not_lt.mp h1)
        rw [ih ys, hxy]
        simp

/-- `cmp_bytes` is transitive in its strict sense. -/
theorem cmp_bytes_lt_trans : ∀ (a b c : List Char), cmp_bytes a b = .lt →
    cmp_bytes b c = .lt → cmp_bytes a c = .lt := by
  intro a
  induction a with
  | nil =>
    intro b c hab hbc
    cases b with
    | nil => cases hab
    | cons bh bt =>
      cases c with
      | nil => cases hbc
      | cons ch ct => rfl
  | cons ah at' iha =>
    intro b c hab hbc
    cases b with
    | nil => cases hab
    | cons bh bt =>
      cases c with
      | nil => cases hbc
      | cons ch ct =>
        simp only [cmp_bytes] at hab hbc ⊢
        by_cases h1 : ah < bh
        · by_cases h2 : bh < ch
          · rw [if_pos (lt_trans h1 h2)]
          · rw [if_neg h2] at hbc
            by_cases h3 : ch < bh
            · rw [if_pos h3] at hbc; cases hbc
            · have hbceq : bh = ch := le_antisymm (not_lt.mp h3) (not_lt.mp h2)
              rw [if_pos (hbceq ▸ h1)]
        · rw [if_neg h1] at hab
          by_cases h1' : bh < ah
          · rw [if_pos h1'] at hab; cases hab
          · rw [if_neg h1'] at hab
            have habeq : ah = bh := le_antisymm (not_lt.mp h1') (not_lt.mp h1)
            by_cases h2 : bh < ch
            · rw [if_pos (habeq ▸ h2)]
            · rw [if_neg h2] at hbc
              by_cases h3 : ch < bh
              · rw [if_pos h3] at hbc; cases hbc
              · rw [if_neg h3] at hbc
                have hbceq : bh = ch := le_antisymm (not_lt.mp h3) (not_lt.mp h2)
                rw [habeq, hbceq]
                rw [if_neg (lt_irrefl ch), if_neg (lt_irrefl ch)]
                exact iha bt ct hab hbc

/-- Index access form of strict lexicon sortedness. -/
theorem pairwise_getD_cmp_lt {lex : List (List Char)}
    (hs : lex.Pairwise (fun a b => cmp_bytes a b = .lt)) {i j : Nat} (hij : i < j)
    (hj : j < lex.length) :
    cmp_bytes (lex.getD i []) (lex.getD j []) = .lt := by
  have hi : i < lex.length := lt_trans hij hj
  rw [List.getD_eq_getElem _ _ hi, List.getD_eq_getElem _ _ hj]
  exact List.pairwise_iff_getElem.mp hs i j hi hj hij

/-- Soundness of the binary-search loop: a returned index is in range and its
record's term equals the probe. -/
theorem find_term_go_sound (lex : List (List Char)) (t : List Char) :
    ∀ (fuel lo hi : Nat), hi - lo ≤ fuel → hi ≤ lex.length →
      ∀ i, find_term_go lex t lo hi = some i → i < lex.length ∧ lex.getD i [] = t := by
  intro fuel
  induction fuel with
  | zero =>
    intro lo hi hf hh i hres
    unfold find_term_go at hres
    rw [dif_neg (by omega)] at hres
    cases hres
  | succ fuel ih =>
    intro lo hi hf hh i hres
    by_cases hlh : lo < hi
    · unfold find_term_go at hres
      rw [dif_pos hlh] at hres
      cases hcmp : cmp_bytes t (lex.getD (lo + (hi - lo) / 2) []) with
      | eq =>
        rw [hcmp] at hres
        injection hres with hres'
        rw [← hres']
        refine ⟨by omega, ?_⟩
        rw [← (cmp_bytes_eq_iff t _).mp hcmp]
      | lt =>
        rw [hcmp] at hres
        exact ih lo (lo + (hi - lo) / 2) (by omega) (by omega) i hres
      | gt =>
        rw [hcmp] at hres
        exact ih (lo + (hi - lo) / 2 + 1) hi (by omega) hh i hres
    · unfold find_term_go at hres
      rw [dif_neg hlh] at hres
      cases hres

/-- Completeness of the binary-search loop: when a record in the window holds
the probe term, a hit is returned. -/
theorem find_term_go_complete (lex : List (List Char)) (t : List Char)
    (hs : lex.Pairwise (fun a b => cmp_bytes a b = .lt)) :
    ∀ (fuel lo hi : Nat), hi - lo ≤ fuel → hi ≤ lex.length →
      (∃ i, lo ≤ i ∧ i < hi ∧ lex.getD i [] = t) →
      (find_term_go lex t lo hi).isSome := by
  intro fuel
  induction fuel with
  | zero =>
    intro lo hi hf _ hw
    obtain ⟨i, h1, h2, _⟩ := hw
    omega
  | succ fuel ih =>
    intro lo hi hf hh hw
    obtain ⟨i, hloi, hihi, heq⟩ := hw
    have hlh : lo < hi := by omega
    unfold find_term_go
    rw [dif_pos hlh]
    cases hcmp : cmp_bytes t (lex.getD (lo + (hi - lo) / 2) []) with
    | eq => simp
    | lt =>
      apply ih lo (lo + (hi - lo) / 2) (by omega) (by omega)
      refine ⟨i, hloi, ?_, heq⟩
      by_contra hge
      rcases Nat.lt_or_ge (lo + (hi - lo) / 2) i with hgt | hle
      · have hmi : cmp_bytes (lex.getD (lo + (hi - lo) / 2) []) (lex.getD i []) = .lt :=
          pairwise_getD_cmp_lt hs hgt (by omega)
        rw [heq] at hmi
        have := cmp_bytes_lt_trans t _ t hcmp hmi
        rw [cmp_bytes_self] at this
        cases this
      · have hieq : i = lo + (hi - lo) / 2 := by omega
        rw [hieq] at heq
        rw [heq] at hcmp
        rw [cmp_bytes_self] at hcmp
        cases hcmp
    | gt =>
      apply ih (lo + (hi - lo) / 2 + 1) hi (by omega) hh
      refine ⟨i, ?_, hihi, heq⟩
      by_contra hlt
      rcases Nat.lt_or_ge i (lo + (hi - lo) / 2) with hgt | hle
      · have hmi : cmp_bytes (lex.getD i []) (lex.getD (lo + (hi - lo) / 2) []) = .lt :=
          pairwise_getD_cmp_lt hs hgt (by omega)
        rw [heq] at hmi
        rw [hmi] at hcmp
        cases hcmp
      · have hieq : i = lo + (hi - lo) / 2 := by omega
        rw [hieq] at heq
        rw [heq] at hcmp
        rw [cmp_bytes_self] at hcmp
        cases hcmp

/-- C7: over a lexicon sorted strictly ascending under the (bytes, length)
order `cmp_bytes`, `find_term` returns the index of the record whose term
equals the probe when one exists, and `none` (the C `return 0`) when no
record's term equals the probe. -/
theorem C7_find_term_binary_search (lex : List (List Char)) (t : List Char)
    (hs : lex.Pairwise (fun a b => cmp_bytes a b = .lt)) :
    (∀ i, find_term lex t = some i → i < lex.length ∧ lex.getD i [] = t) ∧
      ((∃ i, i < lex.length ∧ lex.getD i [] = t) → (find_term lex t).isSome) ∧
      ((∀ i, i < lex.length → lex.getD i [] ≠ t) → find_term lex t = none) := by
  refine ⟨fun i h =>
    find_term_go_sound lex t lex.length 0 lex.length (by omega) le_rfl i h, ?_, ?_⟩
  · rintro ⟨i, hi, heq⟩
    exact find_term_go_complete lex t hs lex.length 0 lex.length (by omega) le_rfl
      ⟨i, Nat.zero_le i, hi, heq⟩
  · intro hnone
    cases hres : find_term lex t with
    | none => rfl
    | some i =>
      obtain ⟨hlt, heq⟩ :=
        find_term_go_sound lex t lex.length 0 lex.length (by omega) le_rfl i hres
      exact absurd heq (hnone i hlt)

/-- Witness for C7 on the two-record lexicon `["a", "ab"]` probed with
`"ab"`. -/
theorem C7_find_term_binary_search_witness :
    (∀ i, find_term [['a'], ['a', 'b']] ['a', 'b'] = some i →
        i < 2 ∧ [['a'], ['a', 'b']].getD i [] = ['a', 'b']) ∧
      ((∃ i, i < 2 ∧ [['a'], ['a', 'b']].getD i [] = ['a', 'b']) →
        (find_term [['a'], ['a', 'b']] ['a', 'b']).isSome) ∧
      ((∀ i, i < 2 → [['a'], ['a', 'b']].getD i [] ≠ ['a', 'b']) →
        find_term [['a'], ['a', 'b']] ['a', 'b'] = none) :=
  C7_find_term_binary_search [['a'], ['a', 'b']] ['a', 'b'] (by decide)

/-- A matched suffix is no longer than the word. -/
theorem ends_with_length {w s : List Char} (h : ends_with w s = true) :
    s.length ≤ w.length :=
  (List.isSuffixOf_iff_suffix.mp h).length_le

/-- A positive measure forces the scan bound `j` to be at least 1. -/
theorem m_measure_pos {b : List Char} {j : Int} (h : 0 < m_measure b j) : 1 ≤ j := by
  by_contra hlt
  push_neg at hlt
  unfold m_measure at h
  rcases lt_or_ge j 0 with hneg | hge
  · rw [if_pos hneg] at h
    exact absurd h (lt_irrefl 0)
  · rw [if_neg (not_lt.mpr hge)] at h
    have hj0 : j.toNat = 0 := by omega
    rw [hj0] at h
    simp at h

/-- A vowel in the stem forces the scan bound to be nonnegative. -/
theorem vowel_in_stem_nonneg {b : List Char} {j : Int} (h : vowel_in_stem b j = true) :
    0 ≤ j := by
  by_contra hneg
  unfold vowel_in_stem at h
  rw [if_pos (by omega)] at h
  cases h

/-- A double consonant at `j` forces `j ≥ 1`. -/
theorem doublec_ge_one {b : List Char} {j : Int} (h : doublec b j = true) : 1 ≤ j := by
  by_contra h1
  unfold doublec at h
  rw [if_pos (by omega)] at h
  cases h

/-- The plural block never lengthens. -/
theorem step1_s_length_le (w : List Char) : (step1_s w).length ≤ w.length := by
  unfold step1_s
  split_ifs <;> simp [List.length_take] <;> omega

/-- The plural block keeps a word of length at least 3 nonempty. -/
theorem step1_s_length_ge (w : List Char) (h : 3 ≤ w.length) :
    1 ≤ (step1_s w).length := by
  unfold step1_s
  split_ifs <;> (try simp only [List.length_take]) <;> omega

/-- The `eed`/`ed`/`ing` block never lengthens. -/
theorem step1_ed_ing_le (w : List Char) : (step1_ed_ing w).1.length ≤ w.length := by
  unfold step1_ed_ing
  split_ifs <;> simp [List.length_take] <;> omega

/-- The `eed`/`ed`/`ing` block keeps a nonempty word nonempty. -/
theorem step1_ed_ing_ge (w : List Char) (h : 1 ≤ w.length) :
    1 ≤ (step1_ed_ing w).1.length := by
  unfold step1_ed_ing
  by_cases h1 : ends_with w "eed".toList = true
  · rw [if_pos h1]
    by_cases h2 : 0 < m_measure w ((w.length : Int) - 4)
    · rw [if_pos h2]
      have hm := m_measure_pos h2
      simp only [List.length_take]
      omega
    · rw [if_neg h2]
      exact h
  · rw [if_neg h1]
    by_cases h3 : (ends_with w "ed".toList && vowel_in_stem w ((w.length : Int) - 3)) = true
    · rw [if_pos h3]
      rw [Bool.and_eq_true] at h3
      have hv := vowel_in_stem_nonneg h3.2
      simp only [List.length_take]
      omega
    · rw [if_neg h3]
      by_cases h4 : (ends_with w "ing".toList && vowel_in_stem w ((w.length : Int) - 4)) = true
      · rw [if_pos h4]
        rw [Bool.and_eq_true] at h4
        have hv := vowel_in_stem_nonneg h4.2
        simp only [List.length_take]
        omega
      · rw [if_neg h4]
        exact h

/-- When the flag is set, the `ed`/`ing` removal shortened the word by at
least 2. -/
theorem step1_ed_ing_flag (w : List Char) (h : (step1_ed_ing w).2 = true) :
    (step1_ed_ing w).1.length + 2 ≤ w.length := by
  unfold step1_ed_ing at h ⊢
  by_cases h1 : ends_with w "eed".toList = true
  · rw [if_pos h1] at h
    by_cases h2 : 0 < m_measure w ((w.length : Int) - 4)
    · rw [if_pos h2] at h
      simp at h
    · rw [if_neg h2] at h
      simp at h
  · rw [if_neg h1] at h ⊢
    by_cases h3 : (ends_with w "ed".toList && vowel_in_stem w ((w.length : Int) - 3)) = true
    · rw [if_pos h3]
      rw [Bool.and_eq_true] at h3
      have hlen := ends_with_length h3.1
      rw [show ("ed".toList).length = 2 from rfl] at hlen
      simp only [List.length_take]
      omega
    · rw [if_neg h3] at h ⊢
      by_cases h4 : (ends_with w "ing".toList && vowel_in_stem w ((w.length : Int) - 4)) = true
      · rw [if_pos h4]
        rw [Bool.and_eq_true] at h4
        have hlen := ends_with_length h4.1
        rw [show ("ing".toList).length = 3 from rfl] at hlen
        simp only [List.length_take]
        omega
      · rw [if_neg h4] at h
        simp at h

/-- The flag post-processing block lengthens by at most one. -/
theorem step1_fix_le (w : List Char) : (step1_fix w).length ≤ w.length + 1 := by
  unfold step1_fix
  split_ifs with h1 h2 h3 h4 h5 h6
  · have := ends_with_length h1
    rw [show ("at".toList).length = 2 from rfl] at this
    simp [List.length_take]
    omega
  · have := ends_with_length h2
    rw [show ("bl".toList).length = 2 from rfl] at this
    simp [List.length_take]
    omega
  · have := ends_with_length h3
    rw [show ("iz".toList).length = 2 from rfl] at this
    simp [List.length_take]
    omega
  · simp [List.length_take]
    omega
  · omega
  · simp
  · omega

/-- The flag post-processing block keeps a nonempty word nonempty. -/
theorem step1_fix_ge (w : List Char) (h : 1 ≤ w.length) :
    1 ≤ (step1_fix w).length := by
  unfold step1_fix
  split_ifs with h1 h2 h3 h4 h5 h6
  · simp
  · simp
  · simp
  · have := doublec_ge_one h4
    simp [List.length_take]
    omega
  · exact h
  · simp
  · exact h

/-- The trailing-`y` substitution preserves length. -/
theorem step1_y_length (w : List Char) : (step1_y w).length = w.length := by
  unfold step1_y
  split_ifs with h1
  · rw [Bool.and_eq_true] at h1
    have := ends_with_length h1.1
    rw [show ("y".toList).length = 1 from rfl] at this
    simp [List.length_take]
    omega
  · rfl

/-- `step1ab` never lengthens. -/
theorem step1ab_le (w : List Char) : (step1ab w).length ≤ w.length := by
  unfold step1ab
  rcases hp : step1_ed_ing (step1_s w) with ⟨w2, flag⟩
  have h1 : w2.length ≤ (step1_s w).length := by
    have := step1_ed_ing_le (step1_s w)
    rw [hp] at this
    exact this
  have hs := step1_s_length_le w
  cases flag with
  | false =>
    simp only [Bool.false_eq_true, if_false, step1_y_length]
    omega
  | true =>
    have h2 : w2.length + 2 ≤ (step1_s w).length := by
      have := step1_ed_ing_flag (step1_s w) (by rw [hp])
      rw [hp] at this
      exact this
    have h3 := step1_fix_le w2
    simp only [if_true, step1_y_length]
    omega

/-- `step1ab` keeps a word of length at least 3 nonempty. -/
theorem step1ab_ge (w : List Char) (h : 3 ≤ w.length) : 1 ≤ (step1ab w).length := by
  unfold step1ab
  rcases hp : step1_ed_ing (step1_s w) with ⟨w2, flag⟩
  have hs1 : 1 ≤ (step1_s w).length := step1_s_length_ge w h
  have h2 : 1 ≤ w2.length := by
    have := step1_ed_ing_ge (step1_s w) hs1
    rw [hp] at this
    exact this
  cases flag with
  | false =>
    simp only [Bool.false_eq_true, if_false, step1_y_length]
    omega
  | true =>
    have h3 := step1_fix_ge w2 h2
    simp only [if_true, step1_y_length]
    omega

/-- The guarded substitution never lengthens when the replacement is no
longer than the suffix it replaces. -/
theorem rule_sub_le {w suf rep : List Char} (hrr : rep.length ≤ suf.length)
    (hsw : suf.length ≤ w.length) : (rule_sub w suf rep).length ≤ w.length := by
  unfold rule_sub
  split_ifs with hm
  · simp [List.length_take]
    omega
  · exact le_refl _

/-- The guarded substitution keeps a nonempty word nonempty. -/
theorem rule_sub_ge {w suf rep : List Char} (h : 1 ≤ w.length) :
    1 ≤ (rule_sub w suf rep).length := by
  unfold rule_sub
  split_ifs with hm
  · have := m_measure_pos hm
    simp [List.length_take]
    omega
  · exact h

/-- First-match rule application never lengthens when no rule's replacement
exceeds its suffix. -/
theorem apply_first_rule_le (w : List Char) :
    ∀ rs : List (List Char × List Char), (∀ p ∈ rs, p.2.length ≤ p.1.length) →
      (apply_first_rule w rs).length ≤ w.length := by
  intro rs
  induction rs with
  | nil => intro _; exact le_refl _
  | cons p ps ih =>
    intro hp
    rcases p with ⟨suf, rep⟩
    unfold apply_first_rule
    split_ifs with he
    · exact rule_sub_le (hp (suf, rep) (List.mem_cons_self _ _)) (ends_with_length he)
    · exact ih (fun q hq => hp q (List.mem_cons_of_mem _ hq))

/-- First-match rule application keeps a nonempty word nonempty. -/
theorem apply_first_rule_ge (w : List Char) (h : 1 ≤ w.length) :
    ∀ rs : List (List Char × List Char), 1 ≤ (apply_first_rule w rs).length := by
  intro rs
  induction rs with
  | nil => exact h
  | cons p ps ih =>
    rcases p with ⟨suf, rep⟩
    unfold apply_first_rule
    split_ifs with he
    · exact rule_sub_ge h
    · exact ih

/-- Each `step2` replacement is no longer than the suffix it replaces. -/
theorem step2_rules_ok : ∀ p ∈ step2_rules, p.2.length ≤ p.1.length := by
  have hall : step2_rules.all (fun p => decide (p.2.length ≤ p.1.length)) = true := by decide
  intro p hp
  simpa using List.all_eq_true.mp hall p hp

/-- Each `step3` replacement is no longer than the suffix it replaces. -/
theorem step3_rules_ok : ∀ p ∈ step3_rules, p.2.length ≤ p.1.length := by
  have hall : step3_rules.all (fun p => decide (p.2.length ≤ p.1.length)) = true := by decide
  intro p hp
  simpa using List.all_eq_true.mp hall p hp

/-- `step2` never lengthens. -/
theorem step2_le (w : List Char) : (step2 w).length ≤ w.length :=
  apply_first_rule_le w step2_rules step2_rules_ok

/-- `step2` keeps a nonempty word nonempty. -/
theorem step2_ge (w : List Char) (h : 1 ≤ w.length) : 1 ≤ (step2 w).length :=
  apply_first_rule_ge w h step2_rules

/-- `step3` never lengthens. -/
theorem step3_le (w : List Char) : (step3 w).length ≤ w.length :=
  apply_first_rule_le w step3_rules step3_rules_ok

/-- `step3` keeps a nonempty word nonempty. -/
theorem step3_ge (w : List Char) (h : 1 ≤ w.length) : 1 ≤ (step3 w).length :=
  apply_first_rule_ge w h step3_rules

/-- The `step4` scan never lengthens. -/
theorem step4_go_le (w : List Char) : ∀ sufs, (step4_go w sufs).length ≤ w.length := by
  intro sufs
  induction sufs with
  | nil => exact le_refl _
  | cons suf rest ih =>
    unfold step4_go
    split_ifs
    · exact le_refl _
    · simp only [List.length_take]
      omega
    · exact le_refl _
    · exact ih

/-- The `step4` scan keeps a nonempty word nonempty. -/
theorem step4_go_ge (w : List Char) (h : 1 ≤ w.length) :
    ∀ sufs, 1 ≤ (step4_go w sufs).length := by
  intro sufs
  induction sufs with
  | nil => exact h
  | cons suf rest ih =>
    unfold step4_go
    split_ifs with he hion hm
    · exact h
    · have hm0 : 0 < m_measure w ((w.length : Int) - (suf.length : Int) - 1) := by omega
      have := m_measure_pos hm0
      simp [List.length_take]
      omega
    · exact h
    · exact ih

/-- `step4` never lengthens. -/
theorem step4_le (w : List Char) : (step4 w).length ≤ w.length :=
  step4_go_le w step4_sufs

/-- `step4` keeps a nonempty word nonempty. -/
theorem step4_ge (w : List Char) (h : 1 ≤ w.length) : 1 ≤ (step4 w).length :=
  step4_go_ge w h step4_sufs

/-- `step5a` never lengthens. -/
theorem step5a_le (w : List Char) : (step5a w).length ≤ w.length := by
  unfold step5a
  split_ifs <;> simp [List.length_take] <;> omega

/-- `step5a` keeps a nonempty word nonempty. -/
theorem step5a_ge (w : List Char) (h : 1 ≤ w.length) : 1 ≤ (step5a w).length := by
  unfold step5a
  split_ifs with he hdel
  · rcases hdel with hm | ⟨hm, _⟩
    · have := m_measure_pos (by omega : 0 < m_measure w ((w.length : Int) - 2))
      simp [List.length_take]
      omega
    · have := m_measure_pos (by omega : 0 < m_measure w ((w.length : Int) - 2))
      simp [List.length_take]
      omega
  · exact h
  · exact h

/-- `step5b` never lengthens. -/
theorem step5b_le (w : List Char) : (step5b w).length ≤ w.length := by
  unfold step5b
  split_ifs <;> simp [List.length_take] <;> omega

/-- `step5b` keeps a nonempty word nonempty. -/
theorem step5b_ge (w : List Char) (h : 1 ≤ w.length) : 1 ≤ (step5b w).length := by
  unfold step5b
  split_ifs with hc
  · have := m_measure_pos (by omega : 0 < m_measure w ((w.length : Int) - 1))
    simp [List.length_take]
    omega
  · exact h

/-- The full stemmer never lengthens its input. -/
theorem porter_stem_inplace_le (w : List Char) :
    (porter_stem_inplace w).length ≤ w.length := by
  unfold porter_stem_inplace
  by_cases h1 : w.length ≤ 2
  · rw [if_pos h1]
  · rw [if_neg h1]
    by_cases h2 : ¬has_lower_letter w = true
    · rw [if_pos h2]
    · rw [if_neg h2]
      unfold step5
      have g1 := step1ab_le w
      have g2 := step2_le (step1ab w)
      have g3 := step3_le (step2 (step1ab w))
      have g4 := step4_le (step3 (step2 (step1ab w)))
      have g5 := step5a_le (step4 (step3 (step2 (step1ab w))))
      have g6 := step5b_le (step5a (step4 (step3 (step2 (step1ab w)))))
      omega

/-- The full stemmer keeps a nonempty input nonempty. -/
theorem porter_stem_inplace_ge (w : List Char) (h : 1 ≤ w.length) :
    1 ≤ (porter_stem_inplace w).length := by
  unfold porter_stem_inplace
  by_cases h1 : w.length ≤ 2
  · rw [if_pos h1]
    exact h
  · rw [if_neg h1]
    by_cases h2 : ¬has_lower_letter w = true
    · rw [if_pos h2]
      exact h
    · rw [if_neg h2]
      unfold step5
      have h3 : 3 ≤ w.length := by omega
      exact step5b_ge _ (step5a_ge _ (step4_ge _ (step3_ge _ (step2_ge _ (step1ab_ge w h3)))))

/-- C9: for any input of at most 255 bytes, `stem_word_en` returns a length
at most the input length and at most 255, so the query path's 256-byte token
buffer cannot overflow. -/
theorem C9_stemmer_never_lengthens (w : List Char) (h : w.length ≤ 255) :
    (stem_word_en w).length ≤ w.length ∧ (stem_word_en w).length ≤ 255 :=
  ⟨porter_stem_inplace_le w, le_trans (porter_stem_inplace_le w) h⟩

/-- Witness for C9 at the concrete token `"running"`. -/
theorem C9_stemmer_never_lengthens_witness :
    ("running".toList.length ≤ 255) ∧
      ((stem_word_en "running".toList).length ≤ "running".toList.length ∧
        (stem_word_en "running".toList).length ≤ 255) :=
  ⟨by decide, C9_stemmer_never_lengthens "running".toList (by decide)⟩

/-- A nonempty token never stems (and clamps) to the empty string. -/
theorem normalize_term_ne_nil {w : List Char} (h : w ≠ []) : normalize_term w ≠ [] := by
  have h1 : 1 ≤ w.length := List.length_pos.mpr h
  have h2 : 1 ≤ (stem_word_en w).length := porter_stem_inplace_ge w h1
  unfold normalize_term
  apply List.length_pos.mp
  rw [List.length_take]
  omega

/-- A non-`notOp` stack operator emits an AND or OR item. -/
theorem item_of_op_benign {o : OpT} (h : o ≠ OpT.notOp) :
    item_of_op o = RItem.andOp ∨ item_of_op o = RItem.orOp := by
  cases o with
  | andOp => exact Or.inl rfl
  | orOp => exact Or.inr rfl
  | notOp => exact absurd rfl h
  | lpOp => exact Or.inl rfl

/-- `pop_ge` on a NOT-free stack emits only AND/OR items and leaves a
NOT-free stack. -/
theorem pop_ge_benign (p2 : Nat) (ra : Bool) :
    ∀ ops : List OpT, (∀ o ∈ ops, o ≠ OpT.notOp) →
      (∀ it ∈ (pop_ge p2 ra ops).1, it = RItem.andOp ∨ it = RItem.orOp) ∧
        (∀ o ∈ (pop_ge p2 ra ops).2, o ≠ OpT.notOp) := by
  intro ops
  induction ops with
  | nil => intro _; exact ⟨by simp [pop_ge], by simp [pop_ge]⟩
  | cons top rest ih =>
    intro h
    unfold pop_ge
    split_ifs with h1 h2
    · exact ⟨by simp, h⟩
    · rcases hpr : pop_ge p2 ra rest with ⟨out, ops'⟩
      obtain ⟨ih1, ih2⟩ := ih (fun o ho => h o (List.mem_cons_of_mem _ ho))
      rw [hpr] at ih1 ih2
      refine ⟨fun it hit => ?_, ih2⟩
      rcases List.mem_cons.mp hit with heq | hmem
      · rw [heq]; exact item_of_op_benign (h top (List.mem_cons_self _ _))
      · exact ih1 it hmem
    · exact ⟨by simp, h⟩

/-- `pop_to_lp` on a NOT-free stack emits only AND/OR items and leaves a
NOT-free stack. -/
theorem pop_to_lp_benign :
    ∀ ops : List OpT, (∀ o ∈ ops, o ≠ OpT.notOp) →
      (∀ it ∈ (pop_to_lp ops).1, it = RItem.andOp ∨ it = RItem.orOp) ∧
        (∀ o ∈ (pop_to_lp ops).2, o ≠ OpT.notOp) := by
  intro ops
  induction ops with
  | nil => intro _; exact ⟨by simp [pop_to_lp], by simp [pop_to_lp]⟩
  | cons top rest ih =>
    intro h
    unfold pop_to_lp
    split_ifs with h1
    · exact ⟨by simp, fun o ho => h o (List.mem_cons_of_mem _ ho)⟩
    · rcases hpr : pop_to_lp rest with ⟨out, ops'⟩
      obtain ⟨ih1, ih2⟩ := ih (fun o ho => h o (List.mem_cons_of_mem _ ho))
      rw [hpr] at ih1 ih2
      refine ⟨fun it hit => ?_, ih2⟩
      rcases List.mem_cons.mp hit with heq | hmem
      · rw [heq]; exact item_of_op_benign (h top (List.mem_cons_self _ _))
      · exact ih1 it hmem

/-- Flushing a NOT-free stack emits only AND/OR items. -/
theorem flush_ops_benign :
    ∀ ops : List OpT, (∀ o ∈ ops, o ≠ OpT.notOp) →
      ∀ it ∈ flush_ops ops, it = RItem.andOp ∨ it = RItem.orOp := by
  intro ops
  induction ops with
  | nil => intro _ it hit; simp [flush_ops] at hit
  | cons top rest ih =>
    intro h it hit
    unfold flush_ops at hit
    split_ifs at hit with h1
    · exact ih (fun o ho => h o (List.mem_cons_of_mem _ ho)) it hit
    · rcases List.mem_cons.mp hit with heq | hmem
      · rw [heq]; exact item_of_op_benign (h top (List.mem_cons_self _ _))
      · exact ih (fun o ho => h o (List.mem_cons_of_mem _ ho)) it hmem

/-- With no TERM and no NOT tokens in the stream, `to_rpn` emits only AND
and OR items. -/
theorem to_rpn_go_benign :
    ∀ toks : List QTok, (∀ tok ∈ toks, is_term_tok tok = false ∧ tok ≠ QTok.notTok) →
      ∀ (prev : Option QTok) (out : List RItem) (ops : List OpT),
        (∀ it ∈ out, it = RItem.andOp ∨ it = RItem.orOp) →
        (∀ o ∈ ops, o ≠ OpT.notOp) →
        ∀ it ∈ to_rpn_go toks prev out ops, it = RItem.andOp ∨ it = RItem.orOp := by
  intro toks
  induction toks with
  | nil =>
    intro _ prev out ops hout hops it hit
    unfold to_rpn_go at hit
    rcases List.mem_append.mp hit with h | h
    · exact hout it h
    · exact flush_ops_benign ops hops it h
  | cons tok rest ih =>
    intro htoks prev out ops hout hops
    have htok := htoks tok (List.mem_cons_self _ _)
    have hrest := fun t ht => htoks t (List.mem_cons_of_mem _ ht)
    unfold to_rpn_go
    by_cases hbad : tok = QTok.badTok
    · rw [if_pos hbad]
      exact ih hrest prev out ops hout hops
    · rw [if_neg hbad]
      rcases hsplit : (if is_value_tok prev ∧ can_start_value tok then
          (match pop_ge (prec .andOp) (is_right_assoc .andOp) ops with
           | (emitted, ops1) => (out ++ emitted, OpT.andOp :: ops1))
        else (out, ops)) with ⟨out1, ops1⟩
      rw [hsplit]
      have hstate : (∀ it ∈ out1, it = RItem.andOp ∨ it = RItem.orOp) ∧
          (∀ o ∈ ops1, o ≠ OpT.notOp) := by
        by_cases himp : is_value_tok prev ∧ can_start_value tok
        · rw [if_pos himp] at hsplit
          rcases hpg : pop_ge (prec .andOp) (is_right_assoc .andOp) ops with ⟨emitted, ops'⟩
          rw [hpg] at hsplit
          obtain ⟨hpg1, hpg2⟩ := pop_ge_benign (prec .andOp) (is_right_assoc .andOp) ops hops
          rw [hpg] at hpg1 hpg2
          injection hsplit with he1 he2
          rw [← he1, ← he2]
          refine ⟨fun it hit => ?_, fun o ho => ?_⟩
          · rcases List.mem_append.mp hit with hm | hm
            · exact hout it hm
            · exact hpg1 it hm
          · rcases List.mem_cons.mp ho with heq | hm
            · rw [heq]; exact fun hc => OpT.noConfusion hc
            · exact hpg2 o hm
        · rw [if_neg himp] at hsplit
          injection hsplit with he1 he2
          rw [← he1, ← he2]
          exact ⟨hout, hops⟩
      obtain ⟨hout1, hops1⟩ := hstate
      cases tok with
      | term t => exact absurd htok.1 (by simp [is_term_tok])
      | notTok => exact absurd rfl htok.2
      | badTok => exact absurd rfl hbad
      | lpTok =>
        have hops1' : ∀ o ∈ OpT.lpOp :: ops1, o ≠ OpT.notOp := by
          intro o ho
          rcases List.mem_cons.mp ho with heq | hm
          · rw [heq]; exact fun hc => OpT.noConfusion hc
          · exact hops1 o hm
        exact ih hrest (some QTok.lpTok) out1 (OpT.lpOp :: ops1) hout1 hops1'
      | rpTok =>
        obtain ⟨hpl1, hpl2⟩ := pop_to_lp_benign ops1 hops1
        have hout' : ∀ it ∈ out1 ++ (pop_to_lp ops1).1,
            it = RItem.andOp ∨ it = RItem.orOp := by
          intro it hit
          rcases List.mem_append.mp hit with hm | hm
          · exact hout1 it hm
          · exact hpl1 it hm
        exact ih hrest (some QTok.rpTok) (out1 ++ (pop_to_lp ops1).1)
          (pop_to_lp ops1).2 hout' hpl2
      | andTok =>
        obtain ⟨hpg1, hpg2⟩ := pop_ge_benign (prec .andOp) (is_right_assoc .andOp) ops1 hops1
        have hout' : ∀ it ∈ out1 ++ (pop_ge (prec .andOp) (is_right_assoc .andOp) ops1).1,
            it = RItem.andOp ∨ it = RItem.orOp := by
          intro it hit
          rcases List.mem_append.mp hit with hm | hm
          · exact hout1 it hm
          · exact hpg1 it hm
        have hops' : ∀ o ∈ OpT.andOp :: (pop_ge (prec .andOp) (is_right_assoc .andOp) ops1).2,
            o ≠ OpT.notOp := by
          intro o ho
          rcases List.mem_cons.mp ho with heq | hm
          · rw [heq]; exact fun hc => OpT.noConfusion hc
          · exact hpg2 o hm
        exact ih hrest (some QTok.andTok)
          (out1 ++ (pop_ge (prec .andOp) (is_right_assoc .andOp) ops1).1)
          (OpT.andOp :: (pop_ge (prec .andOp) (is_right_assoc .andOp) ops1).2) hout' hops'
      | orTok =>
        obtain ⟨hpg1, hpg2⟩ := pop_ge_benign (prec .orOp) (is_right_assoc .orOp) ops1 hops1
        have hout' : ∀ it ∈ out1 ++ (pop_ge (prec .orOp) (is_right_assoc .orOp) ops1).1,
            it = RItem.andOp ∨ it = RItem.orOp := by
          intro it hit
          rcases List.mem_append.mp hit with hm | hm
          · exact hout1 it hm
          · exact hpg1 it hm
        have hops' : ∀ o ∈ OpT.orOp :: (pop_ge (prec .orOp) (is_right_assoc .orOp) ops1).2,
            o ≠ OpT.notOp := by
          intro o ho
          rcases List.mem_cons.mp ho with heq | hm
          · rw [heq]; exact fun hc => OpT.noConfusion hc
          · exact hpg2 o hm
        exact ih hrest (some QTok.orTok)
          (out1 ++ (pop_ge (prec .orOp) (is_right_assoc .orOp) ops1).1)
          (OpT.orOp :: (pop_ge (prec .orOp) (is_right_assoc .orOp) ops1).2) hout' hops'

/-- `pop_safe` on an all-empty stack yields an empty operand and an
all-empty remaining stack. -/
theorem pop_safe_nil_all {st : List (List Nat)} (h : ∀ x ∈ st, x = ([] : List Nat)) :
    (pop_safe st).1 = [] ∧ ∀ x ∈ (pop_safe st).2, x = ([] : List Nat) := by
  cases st with
  | nil => exact ⟨rfl, by simp [pop_safe]⟩
  | cons a rest =>
    exact ⟨h a (List.mem_cons_self _ _), fun x hx => h x (List.mem_cons_of_mem _ hx)⟩

/-- Evaluating a postfix sequence of bare AND/OR items over an all-empty
stack keeps every stack entry empty. -/
theorem eval_fold_nil (idx : SIndex) :
    ∀ rpn : List RItem, (∀ it ∈ rpn, it = RItem.andOp ∨ it = RItem.orOp) →
      ∀ st : List (List Nat), (∀ x ∈ st, x = ([] : List Nat)) →
        ∀ x ∈ rpn.foldl (eval_item idx) st, x = ([] : List Nat) := by
  intro rpn
  induction rpn with
  | nil => intro _ st hst; simpa using hst
  | cons it rest ih =>
    intro hrpn st hst
    simp only [List.foldl_cons]
    apply ih (fun j hj => hrpn j (List.mem_cons_of_mem _ hj))
    rcases hq1 : pop_safe st with ⟨b, st1⟩
    have hb : b = [] := by
      have := (pop_safe_nil_all hst).1; rw [hq1] at this; exact this
    have hst1 : ∀ x ∈ st1, x = ([] : List Nat) := by
      have := (pop_safe_nil_all hst).2; rw [hq1] at this; exact this
    rcases hq2 : pop_safe st1 with ⟨a, st2⟩
    have ha : a = [] := by
      have := (pop_safe_nil_all hst1).1; rw [hq2] at this; exact this
    have hst2 : ∀ x ∈ st2, x = ([] : List Nat) := by
      have := (pop_safe_nil_all hst1).2; rw [hq2] at this; exact this
    rcases hrpn it (List.mem_cons_self _ _) with heq | heq <;> rw [heq]
    · simp only [eval_item]
      rw [hq1, hq2]
      intro x hx
      rcases List.mem_cons.mp hx with hxx | hxx
      · rw [hxx, if_pos (Or.inl ha)]
      · exact hst2 x hxx
    · simp only [eval_item]
      rw [hq1, hq2]
      intro x hx
      rcases List.mem_cons.mp hx with hxx | hxx
      · rw [hxx, if_pos ⟨ha, hb⟩]
      · exact hst2 x hxx

/-- C3 counterexample: the query line `"!"` lexes with no TERM token, yet it
evaluates (on any index with one document) to the full range `[0]` — one
hit, not zero. -/
theorem C3_counterexample_bang_query :
    ((lex_query ['!']).all (fun tok => !is_term_tok tok)) = true ∧
      eval_rpn ⟨1, []⟩ (to_rpn ['!']) = [0] :=
  ⟨rfl, rfl⟩

/-- C3 (amended): a query line whose token stream contains no TERM and no
NOT tokens evaluates to the empty result. -/
theorem C3_no_term_no_not_empty (idx : SIndex) (line : List Char)
    (h : ∀ tok ∈ lex_query line, is_term_tok tok = false ∧ tok ≠ QTok.notTok) :
    eval_rpn idx (to_rpn line) = [] := by
  have hbenign : ∀ it ∈ to_rpn line, it = RItem.andOp ∨ it = RItem.orOp :=
    to_rpn_go_benign (lex_query line) h none [] [] (by simp) (by simp)
  unfold eval_rpn
  exact (pop_safe_nil_all (eval_fold_nil idx (to_rpn line) hbenign [] (by simp))).1

/-- Witness for the amended C3 at the query `"&"` on a two-document index. -/
theorem C3_no_term_no_not_empty_witness :
    (∀ tok ∈ lex_query ['&'], is_term_tok tok = false ∧ tok ≠ QTok.notTok) ∧
      eval_rpn ⟨2, []⟩ (to_rpn ['&']) = [] :=
  ⟨by decide, C3_no_term_no_not_empty ⟨2, []⟩ ['&'] (by decide)⟩

/-- A term emitted from a pending run is nonempty. -/
theorem emit_cur_term_ne_nil {cur t : List Char} (h : QTok.term t ∈ emit_cur cur) :
    t ≠ [] := by
  unfold emit_cur at h
  split_ifs at h with hc
  · simp at h
  · have h2 := List.mem_singleton.mp h
    injection h2 with h3
    rw [h3]
    intro hnil
    have hcur : cur ≠ [] := by simpa [List.isEmpty_iff] using hc
    have hlen := congrArg List.length hnil
    rw [List.length_take, List.length_reverse] at hlen
    have hpos := List.length_pos.mpr hcur
    simp only [List.length_nil] at hlen
    rw [Nat.min_eq_zero_iff] at hlen
    omega

/-- Every TERM token produced by the query lexer carries nonempty text
(strong induction on the remaining input, since `&&`/`||` consume two
bytes). -/
theorem lex_go_term_ne_nil :
    ∀ (n : Nat) (input cur : List Char), input.length ≤ n → ∀ {t : List Char},
      QTok.term t ∈ lex_go cur input → t ≠ [] := by
  intro n
  induction n with
  | zero =>
    intro input cur hlen t ht
    have hnil : input = [] := List.length_eq_zero.mp (Nat.le_zero.mp hlen)
    rw [hnil] at ht
    exact emit_cur_term_ne_nil ht
  | succ n ihn =>
    intro input cur hlen t ht
    cases input with
    | nil => exact emit_cur_term_ne_nil ht
    | cons c cs =>
      have hcs : cs.length ≤ n := by
        simp only [List.length_cons] at hlen
        omega
      unfold lex_go at ht
      by_cases halnum : is_ascii_alnum c = true
      · rw [if_pos halnum] at ht
        exact ihn cs _ hcs ht
      · rw [if_neg halnum] at ht
        rcases List.mem_append.mp ht with h | h
        · exact emit_cur_term_ne_nil h
        · split_ifs at h with h1 h2 h3 h4 h5 h6
          · exact ihn cs [] hcs h
          · rcases List.mem_cons.mp h with heq | h2
            · exact QTok.noConfusion heq
            · exact ihn cs [] hcs h2
          · rcases List.mem_cons.mp h with heq | h2
            · exact QTok.noConfusion heq
            · exact ihn cs [] hcs h2
          · rcases List.mem_cons.mp h with heq | h2
            · exact QTok.noConfusion heq
            · exact ihn cs [] hcs h2
          · cases cs with
            | nil => simp at h
            | cons c2 cs2 =>
              have hcons : QTok.term t ∈ (if c2 = '&' then QTok.andTok :: lex_go [] cs2
                  else QTok.andTok :: lex_go [] (c2 :: cs2)) := h
              have hcs2 : cs2.length ≤ n := by
                simp only [List.length_cons] at hcs
                omega
              split_ifs at hcons with hc2
              · rcases List.mem_cons.mp hcons with heq | h2
                · exact QTok.noConfusion heq
                · exact ihn cs2 [] hcs2 h2
              · rcases List.mem_cons.mp hcons with heq | h2
                · exact QTok.noConfusion heq
                · exact ihn (c2 :: cs2) [] hcs h2
          · cases cs with
            | nil => simp at h
            | cons c2 cs2 =>
              have hcons : QTok.term t ∈ (if c2 = '|' then QTok.orTok :: lex_go [] cs2
                  else QTok.orTok :: lex_go [] (c2 :: cs2)) := h
              have hcs2 : cs2.length ≤ n := by
                simp only [List.length_cons] at hcs
                omega
              split_ifs at hcons with hc2
              · rcases List.mem_cons.mp hcons with heq | h2
                · exact QTok.noConfusion heq
                · exact ihn cs2 [] hcs2 h2
              · rcases List.mem_cons.mp hcons with heq | h2
                · exact QTok.noConfusion heq
                · exact ihn (c2 :: cs2) [] hcs h2
          · rcases List.mem_cons.mp h with heq | h2
            · exact QTok.noConfusion heq
            · exact ihn cs [] hcs h2

/-- Specialization to whole query lines. -/
theorem lex_query_term_ne_nil {line t : List Char}
    (h : QTok.term t ∈ lex_query line) : t ≠ [] :=
  lex_go_term_ne_nil line.length line [] le_rfl h

/-- C4: deleting the empty-stem TERM tokens from a query's token stream does
not change the produced postfix sequence at all — an empty-stem TERM
contributes neither a value nor any operator (in particular no implicit
AND).  This holds because, over the streams the lexer can actually produce,
the Porter stem of a nonempty token is never empty. -/
theorem C4_empty_stem_term_discarded (line : List Char) :
    to_rpn line = to_rpn_go ((lex_query line).filter keep_tok) none [] [] := by
  have hfilter : (lex_query line).filter keep_tok = lex_query line := by
    apply List.filter_eq_self.mpr
    intro tok htok
    cases tok with
    | term t =>
      have ht : t ≠ [] := lex_query_term_ne_nil htok
      have hnn := normalize_term_ne_nil ht
      simp [keep_tok, List.isEmpty_iff, hnn]
    | andTok => rfl
    | orTok => rfl
    | notTok => rfl
    | lpTok => rfl
    | rpTok => rfl
    | badTok => rfl
  rw [hfilter]
  rfl

/-- Witness for C5 at the concrete ascending stream `[1, 2, 2, 5]`. -/
theorem C5_push_unique_sorted_strict_witness :
    ([1, 2, 2, 5] : List Nat).Pairwise (· ≤ ·) ∧
    ((([1, 2, 2, 5] : List Nat).foldl push_unique_sorted []).Pairwise (· < ·) ∧
      (([1, 2, 2, 5] : List Nat).foldl push_unique_sorted []).Nodup) :=
  ⟨by decide, C5_push_unique_sorted_strict [1, 2, 2, 5] (by decide)⟩

/-- The rehash probe returns an in-range empty slot. -/
theorem tt_probe_empty_mem (tab : List (Option TermEntry)) :
    ∀ (fuel pos : Nat), pos < tab.length → ∀ j, tt_probe_empty tab fuel pos = some j →
      j < tab.length ∧ tab.getD j none = none := by
  intro fuel
  induction fuel with
  | zero =>
    intro pos _ j hj
    unfold tt_probe_empty at hj
    cases hj
  | succ fuel ih =>
    intro pos hpos j hj
    unfold tt_probe_empty at hj
    cases hslot : tab.getD pos none with
    | none =>
      rw [hslot] at hj
      injection hj with hj2
      rw [← hj2]
      exact ⟨hpos, hslot⟩
    | some e =>
      rw [hslot] at hj
      exact ih ((pos + 1) % tab.length) (Nat.mod_lt _ (by omega)) j hj

/-- With an empty slot within reach of the remaining fuel, the rehash probe
succeeds. -/
theorem tt_probe_empty_some (tab : List (Option TermEntry)) :
    ∀ (fuel pos : Nat), pos < tab.length →
      (∃ s, s < fuel ∧ tab.getD ((pos + s) % tab.length) none = none) →
      (tt_probe_empty tab fuel pos).isSome := by
  intro fuel
  induction fuel with
  | zero =>
    intro pos _ hw
    obtain ⟨s, hs, _⟩ := hw
    omega
  | succ fuel ih =>
    intro pos hpos hw
    obtain ⟨s, hsf, hempty⟩ := hw
    unfold tt_probe_empty
    cases hslot : tab.getD pos none with
    | none => simp
    | some e =>
      have hs0 : s ≠ 0 := by
        intro h0
        rw [h0, Nat.add_zero, Nat.mod_eq_of_lt hpos, hslot] at hempty
        exact Option.noConfusion hempty
      apply ih ((pos + 1) % tab.length) (Nat.mod_lt _ (by omega))
      refine ⟨s - 1, by omega, ?_⟩
      have harith : (pos + 1) + (s - 1) = pos + s := by omega
      rw [Nat.mod_add_mod, harith]
      exact hempty

/-- A table with fewer occupied slots than capacity has an empty slot. -/
theorem exists_empty_slot {tab : List (Option TermEntry)}
    (h : tab.countP Option.isSome < tab.length) :
    ∃ i, i < tab.length ∧ tab.getD i none = none := by
  by_contra hc
  push_neg at hc
  have hall : tab.countP Option.isSome = tab.length := by
    rw [List.countP_eq_length]
    intro a ha
    obtain ⟨i, hi, hget⟩ := List.mem_iff_getElem.mp ha
    have hne := hc i hi
    rw [List.getD_eq_getElem _ _ hi, hget] at hne
    exact Option.isSome_iff_ne_none.mpr hne
  omega

/-- From any in-range start, some offset below the capacity reaches any
target slot: the circular probe covers the whole table. -/
theorem probe_reaches {L pos i : Nat} (hL : 0 < L) (hpos : pos < L) (hi : i < L) :
    ∃ s, s < L ∧ (pos + s) % L = i := by
  refine ⟨(L + i - pos) % L, Nat.mod_lt _ hL, ?_⟩
  have h1 : (pos + (L + i - pos) % L) % L = (pos + (L + i - pos)) % L := by
    rw [Nat.add_comm pos ((L + i - pos) % L), Nat.mod_add_mod, Nat.add_comm]
  rw [h1]
  have h2 : pos + (L + i - pos) = L + i := by omega
  rw [h2, Nat.add_mod_left, Nat.mod_eq_of_lt hi]

/-- Filling an empty slot adds one occupied slot. -/
theorem countP_set_some : ∀ (tab : List (Option TermEntry)) (j : Nat) (e : TermEntry),
    j < tab.length → tab.getD j none = none →
    (tab.set j (some e)).countP Option.isSome = tab.countP Option.isSome + 1 := by
  intro tab
  induction tab with
  | nil => intro j e hj _; simp at hj
  | cons a rest ih =>
    intro j e hj hget
    cases j with
    | zero =>
      have ha : a = none := by simpa using hget
      rw [ha]
      simp [List.countP_cons]
    | succ j2 =>
      simp only [List.getD_cons_succ] at hget
      simp only [List.set_cons_succ, List.countP_cons]
      rw [ih j2 e (by simpa using hj) hget]
      omega

/-- The rehash fold of `maybe_grow` succeeds and adds the surviving entries
to the occupied-slot count, as long as the target table has room for all of
them. -/
theorem rehash_fold_ok :
    ∀ (slots tab : List (Option TermEntry)),
      tab.countP Option.isSome + slots.countP Option.isSome < tab.length →
      ∃ tab2,
        slots.foldl
            (fun acc slot =>
              match acc, slot with
              | some tab3, some e => rehash_insert tab3 e
              | acc2, none => acc2
              | none, some _ => none)
            (some tab) = some tab2 ∧
          tab2.length = tab.length ∧
          tab2.countP Option.isSome =
            tab.countP Option.isSome + slots.countP Option.isSome := by
  intro slots
  induction slots with
  | nil =>
    intro tab hroom
    exact ⟨tab, rfl, rfl, by simp⟩
  | cons slot rest ih =>
    intro tab hroom
    cases slot with
    | none =>
      simp only [List.foldl_cons]
      simp only [List.countP_cons] at hroom ⊢
      obtain ⟨tab2, hfold, hlen, hcount⟩ := ih tab (by simpa using hroom)
      refine ⟨tab2, hfold, hlen, ?_⟩
      rw [hcount]
      simp
    | some e =>
      simp only [List.foldl_cons]
      have hroom2 : tab.countP Option.isSome + (rest.countP Option.isSome + 1) <
          tab.length := by
        simpa [List.countP_cons] using hroom
      have hcnt : tab.countP Option.isSome < tab.length := by omega
      obtain ⟨i, hi, hie⟩ := exists_empty_slot hcnt
      have hL : 0 < tab.length := by omega
      have hpstart : e.hash % tab.length < tab.length := Nat.mod_lt _ hL
      obtain ⟨s, hs, hse⟩ := probe_reaches hL hpstart hi
      have hsome := tt_probe_empty_some tab tab.length (e.hash % tab.length) hpstart
        ⟨s, hs, by rw [hse]; exact hie⟩
      cases hp : tt_probe_empty tab tab.length (e.hash % tab.length) with
      | none =>
        rw [hp] at hsome
        cases hsome
      | some j =>
        obtain ⟨hj, hjget⟩ := tt_probe_empty_mem tab tab.length _ hpstart j hp
        have hri : rehash_insert tab e = some (tab.set j (some e)) := by
          unfold rehash_insert
          rw [hp]
        have hnewcnt := countP_set_some tab j e hj hjget
        obtain ⟨tab2, hfold, hlen, hcount⟩ := ih (tab.set j (some e)) (by
          rw [List.length_set, hnewcnt]
          omega)
        refine ⟨tab2, ?_, by rw [hlen, List.length_set], ?_⟩
        · show List.foldl _ (rehash_insert tab e) rest = some tab2
          rw [hri]
          exact hfold
        · rw [hcount, hnewcnt]
          simp [List.countP_cons]
          omega

/-- `maybe_grow` always succeeds on a well-formed table, preserves
well-formedness, and leaves the table strictly below 70% load — in
particular with at least one empty slot. -/
theorem maybe_grow_spec (t : TermTable) (hwf : TT_wf t) :
    ∃ t2, maybe_grow t = some t2 ∧ TT_wf t2 ∧ t2.used * 10 < t2.tab.length * 7 ∧
      t2.used < t2.tab.length := by
  obtain ⟨hused, hposlen, k, hk⟩ := hwf
  unfold maybe_grow
  by_cases hload : t.used * 10 < t.tab.length * 7
  · rw [if_pos hload]
    exact ⟨t, rfl, ⟨hused, hposlen, k, hk⟩, hload, by omega⟩
  · rw [if_neg hload]
    have hcnt : t.tab.countP Option.isSome ≤ t.tab.length :=
      List.countP_le_length Option.isSome
    have hrep_len : (List.replicate (t.tab.length * 2) (none : Option TermEntry)).length =
        t.tab.length * 2 := List.length_replicate _ _
    have hrep_cnt : (List.replicate (t.tab.length * 2)
        (none : Option TermEntry)).countP Option.isSome = 0 := by
      rw [List.countP_eq_zero]
      intro a ha
      rw [List.eq_of_mem_replicate ha]
      simp
    obtain ⟨tab2, hfold, hlen, hcount⟩ := rehash_fold_ok t.tab
      (List.replicate (t.tab.length * 2) (none : Option TermEntry))
      (by rw [hrep_len, hrep_cnt]; omega)
    rw [hfold]
    refine ⟨⟨tab2, t.tab.countP Option.isSome, t.arena_used⟩, rfl, ?_, ?_, ?_⟩
    · refine ⟨?_, ?_, k + 1, ?_⟩
      · show t.tab.countP Option.isSome = tab2.countP Option.isSome
        rw [hcount, hrep_cnt]
        omega
      · show 0 < tab2.length
        rw [hlen, hrep_len]
        omega
      · show tab2.length = 2 ^ (k + 1)
        rw [hlen, hrep_len, hk]
        ring
    · show t.tab.countP Option.isSome * 10 < tab2.length * 7
      rw [hlen, hrep_len]
      omega
    · show t.tab.countP Option.isSome < tab2.length
      rw [hlen, hrep_len]
      omega

/-- With an empty slot within reach, the `get_or_create` probe succeeds
(it may also stop earlier at a matching entry). -/
theorem tt_probe_some (tab : List (Option TermEntry)) (h : Nat) (t : List Char) :
    ∀ (fuel pos : Nat), pos < tab.length →
      (∃ s, s < fuel ∧ tab.getD ((pos + s) % tab.length) none = none) →
      (tt_probe tab h t fuel pos).isSome := by
  intro fuel
  induction fuel with
  | zero =>
    intro pos _ hw
    obtain ⟨s, hs, _⟩ := hw
    omega
  | succ fuel ih =>
    intro pos hpos hw
    obtain ⟨s, hsf, hempty⟩ := hw
    unfold tt_probe
    cases hslot : tab.getD pos none with
    | none => simp
    | some e =>
      dsimp only
      split_ifs with hmatch
      · simp
      · have hs0 : s ≠ 0 := by
          intro h0
          rw [h0, Nat.add_zero, Nat.mod_eq_of_lt hpos, hslot] at hempty
          exact Option.noConfusion hempty
        apply ih ((pos + 1) % tab.length) (Nat.mod_lt _ (by omega))
        refine ⟨s - 1, by omega, ?_⟩
        have harith : (pos + 1) + (s - 1) = pos + s := by omega
        rw [Nat.mod_add_mod, harith]
        exact hempty

/-- C10: on a well-formed term table, `maybe_grow` (run at the top of
`get_or_create`) succeeds — its rehash loop terminates — and restores
`used*10 < cap*7`, so the table keeps an empty slot (`used < cap`) and the
linear-probe loop of `get_or_create` terminates with a result. -/
theorem C10_term_table_growth_and_probe (t : TermTable) (s : List Char) (hs : s ≠ [])
    (hwf : TT_wf t) :
    ∃ t2, maybe_grow t = some t2 ∧ t2.used * 10 < t2.tab.length * 7 ∧
      t2.used < t2.tab.length ∧ (get_or_create t s).isSome := by
  obtain ⟨t2, hmg, hwf2, hload, hroom⟩ := maybe_grow_spec t hwf
  refine ⟨t2, hmg, hload, hroom, ?_⟩
  unfold get_or_create
  have hpos := List.length_pos.mpr hs
  rw [if_neg (by omega), hmg]
  dsimp only
  obtain ⟨hused2, hL2, _⟩ := hwf2
  have hcnt2 : t2.tab.countP Option.isSome < t2.tab.length := by
    rw [← hused2]
    exact hroom
  obtain ⟨i, hi, hie⟩ := exists_empty_slot hcnt2
  have hp2 : fnv1a_64 s % t2.tab.length < t2.tab.length := Nat.mod_lt _ hL2
  obtain ⟨sd, hsd, hse⟩ := probe_reaches hL2 hp2 hi
  have hsome := tt_probe_some t2.tab (fnv1a_64 s) s t2.tab.length
    (fnv1a_64 s % t2.tab.length) hp2 ⟨sd, hsd, by rw [hse]; exact hie⟩
  cases hp : tt_probe t2.tab (fnv1a_64 s) s t2.tab.length
      (fnv1a_64 s % t2.tab.length) with
  | none =>
    rw [hp] at hsome
    cases hsome
  | some v =>
    rcases v with ⟨tab3, pos3, created⟩
    simp

/-- Witness for C10 at a fresh two-slot table and the term `"a"`. -/
theorem C10_term_table_growth_and_probe_witness :
    ((['a'] : List Char) ≠ []) ∧ TT_wf ⟨[none, none], 0, 0⟩ ∧
      ∃ t2, maybe_grow ⟨[none, none], 0, 0⟩ = some t2 ∧
        t2.used * 10 < t2.tab.length * 7 ∧ t2.used < t2.tab.length ∧
        (get_or_create ⟨[none, none], 0, 0⟩ ['a']).isSome :=
  ⟨by decide, ⟨by decide, by decide, 1, by decide⟩,
    C10_term_table_growth_and_probe ⟨[none, none], 0, 0⟩ ['a'] (by decide)
      ⟨by decide, by decide, 1, by decide⟩⟩

/-- C1 counterexample: `dts_sat` is a reachable dedup-set state at 80% load
(7 of 8 slots used, `70 ≥ 64`).  On the fresh term `"h"`, `contains_or_add`
returns 0 ("not present", NOT "already present") and leaves the set
unchanged, and the per-token step of `process_one_doc` then appends doc-id 5
to the term's posting list — the term does contribute a posting-list
append. -/
theorem C1_counterexample_saturated_set :
    dts_sat.used * 10 ≥ dts_sat.tab.length * 8 ∧
      contains_or_add dts_sat "h".toList = some (0, dts_sat) ∧
      (doc_token_step dts_sat tt_empty4 5 "h".toList).map
          (fun st => tt_find_post st.2 "h".toList) = some (some [5]) :=
  ⟨by decide, by decide, by decide⟩

/-- C1 (amended): when the insert would exceed 80% load
(`used*10 ≥ cap*8`), `contains_or_add` on a nonempty term returns
"not present" (0) without inserting — so such terms are processed as fresh
and still contribute a posting-list append for the document. -/
theorem C1_saturated_returns_not_present (s : DocTermSet) (t : List Char)
    (hlen : t ≠ []) (hsat : s.used * 10 ≥ s.tab.length * 8) :
    contains_or_add s t = some (0, s) := by
  unfold contains_or_add
  have hpos := List.length_pos.mpr hlen
  rw [if_neg (by omega), if_pos hsat]

/-- Witness for the amended C1 at the saturated concrete set and the term
`"h"`. -/
theorem C1_saturated_returns_not_present_witness :
    ("h".toList ≠ ([] : List Char)) ∧ dts_sat.used * 10 ≥ dts_sat.tab.length * 8 ∧
      contains_or_add dts_sat "h".toList = some (0, dts_sat) :=
  ⟨by decide, by decide,
    C1_saturated_returns_not_present dts_sat "h".toList (by decide) (by decide)⟩

/-- A run of the manifest loop over lines that all lack a `doc_id` leaves
the builder state untouched: every such line hits the `continue` at
src/indexer.cpp:852. -/
theorem manifest_fold_skip (corpus : List Char → Option (List Char)) (memLimit : Nat) :
    ∀ (lines : List JLine) (st : BuildSt), (∀ l ∈ lines, l.doc_id = none) →
      lines.foldl (manifest_step corpus memLimit) (some st) = some st := by
  intro lines
  induction lines with
  | nil => intro st _; rfl
  | cons l ls ih =>
    intro st h
    have h1 : l.doc_id = none := h l (List.mem_cons_self l ls)
    have hstep : manifest_step corpus memLimit (some st) l = some st := by
      obtain ⟨lid, lt, lu⟩ := l
      cases lid with
      | none => rfl
      | some d => exact Option.noConfusion h1
    rw [List.foldl_cons, hstep]
    exact ih st (fun x hx => h x (List.mem_cons_of_mem l hx))

/-- **C2.** The claim says a build over a manifest with zero usable lines
succeeds with doc_count = 0, term_count = 0 and three valid headers on
disk.  The code disagrees: the doc loop is a no-op, the term table stays
empty so no block is written, `docs.bin` is written with a valid header
and doc_count = 0, and then `merge_blocks_to_index` finds no `.blk` file
and exits 1 (src/indexer.cpp:624) before creating `lexicon.bin` or
`postings.bin` — the build fails and only one of the three files exists. -/
theorem C2_empty_manifest_no_index (corpus : List Char → Option (List Char))
    (memLimit : Nat) (manifest : List JLine)
    (h : ∀ l ∈ manifest, l.doc_id = none) :
    indexer_main corpus memLimit manifest =
      BuildOutcome.exit_no_blocks ⟨"DOCS", 1, 0, []⟩ := by
  have hfold := manifest_fold_skip corpus memLimit manifest build_init h
  unfold indexer_main
  rw [hfold]
  rfl

/-- The C2 theorem at a concrete input: a one-line manifest whose line has
no `doc_id` (zero usable lines) yields the exit-before-index outcome. -/
theorem C2_empty_manifest_no_index_witness :
    (∀ l ∈ ([⟨none, none, none⟩] : List JLine), l.doc_id = none) ∧
      indexer_main (fun _ => none) 536870912 [⟨none, none, none⟩] =
        BuildOutcome.exit_no_blocks ⟨"DOCS", 1, 0, []⟩ :=
  ⟨by decide,
   C2_empty_manifest_no_index (fun _ => none) 536870912 [⟨none, none, none⟩] (by decide)⟩

end IR
